import Mathlib

/-! go-http-server: the incremental HTTP/1.1 request parser.

A shallow embedding of `main.go`: the line reader `readLine`, the two line
decoders `parseRequestLine` and `parseHeaderLine`, the request assembler
`parseRequest` and the response encoder `buildResponse`, together with the
parts of Go's `bytes` package and of the `io.Reader` interface that they use.

Conventions of the embedding:

* a Go `[]byte` is a `List Byte`; where the source distinguishes the `nil` slice
  from a slice (the first result of `readLine`) the value is an `Option`;
* a Go `error` is an `Option GoError`, `none` being `nil`;
* a loop that the source may run forever takes a `fuel : Nat`; running out of
  fuel is the result `none`.
-/

namespace HttpServer

/-- One byte of a Go `[]byte`. -/
abbrev Byte := UInt8

/-- The byte slice `[]byte(s)` of an ASCII string literal of the source. -/
def ascii (s : String) : List Byte := s.toList.map (fun c => c.toNat.toUInt8)

/-- The non-nil error values that reach the parser: the three sentinel errors
declared in `main.go`, `io.EOF`, and any other error a reader reports. -/
inductive GoError where
  | ErrInvalidRequestLine
  | ErrInvalidHTTPVersion
  | ErrInvalidHTTPHeader
  | EOF
  | other (msg : String)
  deriving DecidableEq, Repr

/-- `var rn []byte = []byte("\r\n")`. -/
def rn : List Byte := ascii "\r\n"

/-- `var bufSize int = 1`, the default chunk size. -/
def bufSize : Nat := 1

/-- The byte `' '`, on which the request line is split. -/
def space : Byte := 32

/-- The byte `'/'`, on which the protocol version is split. -/
def slash : Byte := 47

/-- The byte `':'`, at which a header line is cut. -/
def colon : Byte := 58

/-! ## The byte source (`io.Reader`) -/

/-- One result that the source holds ready: bytes, and the error reported with
the last of them (`none` is `nil`). -/
structure ReadEvent where
  bytes : List Byte
  err : Option GoError
  deriving DecidableEq, Repr

/-- An `io.Reader`, given by the results its successive `Read` calls deliver.
Once the list is used up every further `Read` returns `0, io.EOF`. -/
abbrev Reader := List ReadEvent

/-- `reader.Read(buffer)` with `len(buffer) = n`: the bytes written to
`buffer[:n']`, the error, and the reader afterwards. At most `n` bytes are
delivered; an event holding more is delivered in pieces, its error with the
last piece. -/
def Reader.read : Reader → Nat → List Byte × Option GoError × Reader
  | [], _ => ([], some GoError.EOF, [])
  | e :: rest, n =>
    if e.bytes.length ≤ n then (e.bytes, e.err, rest)
    else (e.bytes.take n, none, { bytes := e.bytes.drop n, err := e.err } :: rest)

/-- An in-memory source over a fixed byte sequence (as `bytes.NewReader`): each
`Read` delivers as many of the remaining bytes as fit, with a `nil` error, and
`0, io.EOF` once none remain. -/
def Reader.ofBytes (s : List Byte) : Reader :=
  if s = [] then [] else [{ bytes := s, err := none }]

/-- All bytes the source still holds, in order. -/
def Reader.content : Reader → List Byte
  | [] => []
  | e :: rest => e.bytes ++ Reader.content rest

/-- A bound on the number of `Read` calls (with a buffer of at least one byte)
after which the source is used up. -/
def Reader.cost : Reader → Nat
  | [] => 0
  | e :: rest => e.bytes.length + 1 + Reader.cost rest

/-- The bytes the source delivers up to and including the first event that
reports `io.EOF` (or up to the end of the list, where `io.EOF` is implied),
with the reader left after it; `none` when another error comes first. -/
def Reader.bytesToEOF : Reader → Option (List Byte × Reader)
  | [] => some ([], [])
  | e :: rest =>
    match e.err with
    | some GoError.EOF => some (e.bytes, rest)
    | some _ => none
    | none =>
      match Reader.bytesToEOF rest with
      | some (bs, r) => some (e.bytes ++ bs, r)
      | none => none

/-- The source reports no error with any of the bytes it holds: it delivers
them and then signals `io.EOF`. -/
def Reader.errFree (r : Reader) : Prop := ∀ e ∈ r, e.err = none

instance Reader.decidableErrFree (r : Reader) : Decidable r.errFree :=
  inferInstanceAs (Decidable (∀ e ∈ r, e.err = none))

/-! ## Package `bytes` -/

/-- `bytes.Index(s, sep)`: the index of the first instance of `sep` in `s`;
`none` stands for Go's `-1`. -/
def bytesIndex : List Byte → List Byte → Option Nat
  | [], sep => if sep = [] then some 0 else none
  | b :: t, sep =>
    if sep <+: (b :: t) then some 0
    else (bytesIndex t sep).map (· + 1)

/-- The loop of `bytes.genSplit` for a non-empty separator: at most `n` cuts at
successive instances of `sep`, then the rest. -/
def genSplit : Nat → List Byte → List Byte → List (List Byte)
  | 0, s, _ => [s]
  | n + 1, s, sep =>
    match bytesIndex s sep with
    | none => [s]
    | some m => s.take m :: genSplit n (s.drop (m + sep.length)) sep

/-- `bytes.Split(s, sep)` for a non-empty `sep` (the source only splits on
`" "` and `"/"`): the subslices between the instances of `sep`. Go caps the
number of subslices at `len(s) + 1`. -/
def bytesSplit (s sep : List Byte) : List (List Byte) :=
  genSplit s.length s sep

/-- A structural description of splitting at every occurrence of the single
byte `c`, used to reason about `bytesSplit s [c]`. -/
def splitByte (c : Byte) : List Byte → List (List Byte)
  | [] => [[]]
  | b :: t =>
    if b = c then [] :: splitByte c t
    else
      match splitByte c t with
      | [] => [[b]]
      | h :: r => (b :: h) :: r

/-- The fields joined again with the single byte `c` between them. -/
def joinByte (c : Byte) : List (List Byte) → List Byte
  | [] => []
  | [p] => p
  | p :: q :: r => p ++ c :: joinByte c (q :: r)

/-- `bytes.Cut(s, sep)`: `s` around the first instance of `sep`, and whether
`sep` was found. -/
def bytesCut (s sep : List Byte) : List Byte × List Byte × Bool :=
  match bytesIndex s sep with
  | some i => (s.take i, s.drop (i + sep.length), true)
  | none => (s, [], false)

/-! ## The line reader -/

/-- `readLine(reader, bufSize, data)`. The result is `(line, data, reader, err)`;
`line = none` is the `nil` line. `fuel` bounds the iterations of the outer
`for` loop. -/
def readLine : Nat → Reader → Nat → List Byte →
    Option (Option (List Byte) × List Byte × Reader × Option GoError)
  | 0, _, _, _ => none
  | fuel + 1, reader, bufSize, data =>
    match reader.read bufSize with
    | (chunk, err, reader) =>
      -- if n > 0 { data = append(data, buffer[:n]...); idx := bytes.Index(data, rn) ... }
      let data := if 0 < chunk.length then data ++ chunk else data
      match (if 0 < chunk.length then bytesIndex data rn else none) with
      | some idx =>
        some (some (data.take idx), data.drop (idx + rn.length), reader, none)
      | none =>
        if err = some GoError.EOF then some (none, data, reader, none)
        else if err ≠ none then some (none, data, reader, err)
        else readLine fuel reader bufSize data

/-! ## The line decoders -/

/-- `parseRequestLine(line)`: `(method, target, version, err)`. -/
def parseRequestLine (line : List Byte) :
    List Byte × List Byte × List Byte × Option GoError :=
  let parts := bytesSplit line (ascii " ")
  if parts.length ≠ 3 then ([], [], [], some GoError.ErrInvalidRequestLine)
  else
    let method := parts.getD 0 []
    let target := parts.getD 1 []
    let versionParts := bytesSplit (parts.getD 2 []) (ascii "/")
    if versionParts.length ≠ 2 then ([], [], [], some GoError.ErrInvalidHTTPVersion)
    else if ¬ (versionParts.getD 0 [] = ascii "HTTP") then
      ([], [], [], some GoError.ErrInvalidHTTPVersion)
    else (method, target, versionParts.getD 1 [], none)

/-- `parseHeaderLine(line)`: `(header, value, err)`. -/
def parseHeaderLine (line : List Byte) : List Byte × List Byte × Option GoError :=
  match bytesCut line (ascii ":") with
  | (header, value, found) =>
    if ¬ found then ([], [], some GoError.ErrInvalidHTTPHeader)
    else (header, value, none)

/-! ## The request assembler -/

/-- `type RequestState string` with its four constants. -/
inductive RequestState where
  | RequestLine
  | HeaderLine
  | BodyLine
  | End
  deriving DecidableEq, Repr

/-- A Go `map[string][]byte`, as the list of its entries; a key occurs once. -/
abbrev HeaderMap := List (List Byte × List Byte)

/-- `m[k]` with the comma-ok form: the value stored under `k`, if any. -/
def HeaderMap.get : HeaderMap → List Byte → Option (List Byte)
  | [], _ => none
  | (k1, v1) :: rest, k => if k1 = k then some v1 else HeaderMap.get rest k

/-- `m[k] = v`: overwrite the entry of `k`, or add one. -/
def HeaderMap.set : HeaderMap → List Byte → List Byte → HeaderMap
  | [], k, v => [(k, v)]
  | (k1, v1) :: rest, k, v =>
    if k1 = k then (k, v) :: rest else (k1, v1) :: HeaderMap.set rest k v

/-- `type Request struct`. -/
structure Request where
  Method : List Byte
  Target : List Byte
  Version : List Byte
  headers : HeaderMap
  body : List Byte
  deriving DecidableEq, Repr

/-- The local variables of `parseRequest` that live across loop iterations. -/
structure ParseVars where
  reader : Reader
  data : List Byte
  method : List Byte
  target : List Byte
  version : List Byte
  headers : HeaderMap
  state : RequestState
  hasBody : Bool
  deriving DecidableEq, Repr

/-- The statement after the loop of `parseRequest`:
`return &Request{method, target, version, headers, []byte("")}, nil`. -/
def ParseVars.finish (s : ParseVars) : Option Request × Option GoError :=
  (some { Method := s.method, Target := s.target, Version := s.version,
          headers := s.headers, body := [] }, none)

/-- The loop `for state != End { ... }` of `parseRequest`, followed by the final
return. The result is `(*Request, error)`; `fuel` bounds the iterations, and
what is left of it bounds the loop of each `readLine` call. -/
def parseLoop (bufSize : Nat) : Nat → ParseVars → Option (Option Request × Option GoError)
  | 0, _ => none
  | fuel + 1, s =>
    if s.state = RequestState.End then some s.finish
    else if s.state = RequestState.BodyLine ∧ s.hasBody = false then some s.finish
    else
      match readLine fuel s.reader bufSize s.data with
      | none => none
      | some (line, data, reader, _) =>
        -- a nil line behaves as the empty slice in both decoders and in bytes.Equal
        let line := line.getD []
        let s := { s with reader := reader, data := data }
        match s.state with
        | RequestState.RequestLine =>
          match parseRequestLine line with
          | (_, _, _, some err) => some (none, some err)
          | (method, target, version, none) =>
            parseLoop bufSize fuel
              { s with method := method, target := target, version := version,
                       state := RequestState.HeaderLine }
        | RequestState.HeaderLine =>
          if line = [] then parseLoop bufSize fuel { s with state := RequestState.BodyLine }
          else
            match parseHeaderLine line with
            | (_, _, some err) => some (none, some err)
            | (header, value, none) =>
              parseLoop bufSize fuel
                { s with headers := s.headers.set header value,
                         hasBody := if header = ascii "Content-Length" then true
                                    else s.hasBody }
        | RequestState.BodyLine => parseLoop bufSize fuel { s with state := RequestState.End }
        | RequestState.End => parseLoop bufSize fuel s

/-- `parseRequest(reader)`, with the global `bufSize` made a parameter. -/
def parseRequest (fuel : Nat) (bufSize : Nat) (reader : Reader) :
    Option (Option Request × Option GoError) :=
  parseLoop bufSize fuel
    { reader := reader, data := [], method := [], target := [], version := [],
      headers := [], state := RequestState.RequestLine, hasBody := false }

/-! ## Repeated calls of the line reader -/

/-- The first `k` of a chain of `readLine` calls, each given the reader and the
remainder returned by the call before it: the `(line, err)` of every call, then
the remainder and the reader left by the last. -/
def readLineCalls (fuel : Nat) (bufSize : Nat) :
    Nat → Reader → List Byte →
    Option (List (Option (List Byte) × Option GoError) × List Byte × Reader)
  | 0, reader, data => some ([], data, reader)
  | k + 1, reader, data =>
    match readLine fuel reader bufSize data with
    | none => none
    | some (line, data1, reader1, err) =>
      match readLineCalls fuel bufSize k reader1 data1 with
      | none => none
      | some (rest, data2, reader2) => some ((line, err) :: rest, data2, reader2)

/-- The lines obtained by calling `readLine` again and again, each call given
the reader and the remainder of the call before, until a call returns no line.
`calls` bounds the number of calls. -/
def readAllLines (fuel : Nat) (bufSize : Nat) :
    Nat → Reader → List Byte → Option (List (List Byte))
  | 0, _, _ => none
  | calls + 1, reader, data =>
    match readLine fuel reader bufSize data with
    | none => none
    | some (none, _, _, _) => some []
    | some (some line, data1, reader1, _) =>
      match readAllLines fuel bufSize calls reader1 data1 with
      | none => none
      | some rest => some (line :: rest)

/-- The byte stream made of the given lines, each followed by CR LF. -/
def joinLines : List (List Byte) → List Byte
  | [] => []
  | l :: rest => l ++ rn ++ joinLines rest

/-! ## The request assembler, with the state it leaves behind -/

/-- The loop of `parseRequest` as `parseLoop`, returning also the local variables
at the moment of the return. Their `reader` is the state in which the call
leaves the caller's stream, their `data` the bytes read from it but not used. -/
def parseLoopState (bufSize : Nat) :
    Nat → ParseVars → Option ((Option Request × Option GoError) × ParseVars)
  | 0, _ => none
  | fuel + 1, s =>
    if s.state = RequestState.End then some (s.finish, s)
    else if s.state = RequestState.BodyLine ∧ s.hasBody = false then some (s.finish, s)
    else
      match readLine fuel s.reader bufSize s.data with
      | none => none
      | some (line, data, reader, _) =>
        let line := line.getD []
        let s := { s with reader := reader, data := data }
        match s.state with
        | RequestState.RequestLine =>
          match parseRequestLine line with
          | (_, _, _, some err) => some ((none, some err), s)
          | (method, target, version, none) =>
            parseLoopState bufSize fuel
              { s with method := method, target := target, version := version,
                       state := RequestState.HeaderLine }
        | RequestState.HeaderLine =>
          if line = [] then
            parseLoopState bufSize fuel { s with state := RequestState.BodyLine }
          else
            match parseHeaderLine line with
            | (_, _, some err) => some ((none, some err), s)
            | (header, value, none) =>
              parseLoopState bufSize fuel
                { s with headers := s.headers.set header value,
                         hasBody := if header = ascii "Content-Length" then true
                                    else s.hasBody }
        | RequestState.BodyLine =>
          parseLoopState bufSize fuel { s with state := RequestState.End }
        | RequestState.End => parseLoopState bufSize fuel s

/-- `parseRequest(reader)` together with the local variables on return. -/
def parseRequestState (fuel : Nat) (bufSize : Nat) (reader : Reader) :
    Option ((Option Request × Option GoError) × ParseVars) :=
  parseLoopState bufSize fuel
    { reader := reader, data := [], method := [], target := [], version := [],
      headers := [], state := RequestState.RequestLine, hasBody := false }

/-- The headers map after the assignments `headers[name] = value` for the given
header lines, in order, starting from the map `acc`. -/
def HeaderMap.insertLines (acc : HeaderMap) (hs : List (List Byte)) : HeaderMap :=
  hs.foldl (fun m h => m.set (parseHeaderLine h).1 (parseHeaderLine h).2.1) acc

/-- The flag `hasBody` after the given header lines: set once a header named
`Content-Length` was seen. -/
def seenContentLength (hasBody : Bool) (hs : List (List Byte)) : Bool :=
  hs.foldl (fun b h => if (parseHeaderLine h).1 = ascii "Content-Length" then true else b)
    hasBody

/-! ## The response encoder -/

/-- `type Response struct`. -/
structure Response where
  Version : List Byte
  Status : Int
  headers : HeaderMap
  body : List Byte
  deriving DecidableEq, Repr

/-- The decimal digits of a natural number, as bytes. -/
def natDigits (n : Nat) : List Byte := (Nat.toDigits 10 n).map (fun c => c.toNat.toUInt8)

/-- `strconv.Itoa(i)`: the decimal representation of `i`. -/
def itoa (i : Int) : List Byte :=
  if i < 0 then ascii "-" ++ natDigits i.natAbs else natDigits i.toNat

/-- The byte `'-'`, the sign of a negative decimal numeral. -/
def minusSign : Byte := 45

/-- The byte `'0'`. -/
def digitZero : Byte := 48

/-- The value of a decimal digit, a byte from `'0'` to `'9'`; `none` for any
other byte. -/
def digitValue (b : Byte) : Option Nat :=
  if 48 ≤ b.toNat ∧ b.toNat ≤ 57 then some (b.toNat - 48) else none

/-- The number that the digits of `s`, read from the left, add to the number
`acc` read so far; `none` when a byte of `s` is not a decimal digit. -/
def natValueAux (acc : Nat) : List Byte → Option Nat
  | [] => some acc
  | b :: t =>
    match digitValue b with
    | some d => natValueAux (acc * 10 + d) t
    | none => none

/-- The natural number that a non-empty string of decimal digits denotes. -/
def natValue (s : List Byte) : Option Nat :=
  if s = [] then none else natValueAux 0 s

/-- The integer that a decimal numeral denotes: an optional `'-'`, then at least
one decimal digit; `none` for any other byte string. This is the reading of
"decimal" that the output of `strconv.Itoa` is measured against. -/
def decimalValue (s : List Byte) : Option Int :=
  match s with
  | [] => none
  | b :: t =>
    if b = minusSign then
      match natValue t with
      | some n => some (-(Int.ofNat n))
      | none => none
    else
      match natValue (b :: t) with
      | some n => some (Int.ofNat n)
      | none => none

/-- A decimal numeral in shortest form: no digit follows a leading `'0'`, and no
`'0'` follows the sign (so neither `"007"` nor `"-0"`). -/
def canonicalDecimal (s : List Byte) : Prop :=
  (∀ t, s = digitZero :: t → t = []) ∧ ∀ t, s ≠ minusSign :: digitZero :: t

/-- The byte of the decimal digit `d`. -/
def digitByte (d : Nat) : Byte := (Nat.digitChar d).toNat.toUInt8

/-- Modelled from the spec: `StatusText`, the status-reason lookup that
`buildResponse` calls and whose declaration is not in `main.go`. The spec gives
it as a fixed mapping from status code to reason phrase and names the entries
200 and 404; a code without entry gets the empty reason. -/
def StatusText (code : Int) : List Byte :=
  if code = 200 then ascii "OK"
  else if code = 404 then ascii "Not Found"
  else []

/-- `buildResponse(response)`: `(bytes, err)`. The status-text lookup is a
parameter. The writes to the `bytes.Buffer` append to `resp`. -/
def buildResponse (statusText : Int → List Byte) (response : Response) :
    List Byte × Option GoError :=
  let resp : List Byte := []
  let resp := resp ++ ascii "HTTP/"
  let resp := resp ++ response.Version
  let resp := resp ++ ascii " "
  let resp := resp ++ itoa response.Status
  let resp := resp ++ ascii " "
  let resp := resp ++ statusText response.Status
  let resp := resp ++ response.body
  let resp := resp ++ rn
  (resp, none)

/-- A bound on the iterations of the loop of `parseRequest` that remain once
the source is used up. -/
def RequestState.remaining : RequestState → Nat
  | RequestState.RequestLine => 3
  | RequestState.HeaderLine => 3
  | RequestState.BodyLine => 2
  | RequestState.End => 1

/-- The bytes the source delivers up to and including the first event that
reports an error other than `io.EOF`, that error, and the reader left after it;
`none` when end-of-stream comes first. -/
def Reader.bytesToErr : Reader → Option (List Byte × GoError × Reader)
  | [] => none
  | e :: rest =>
    match e.err with
    | some GoError.EOF => none
    | some g => some (e.bytes, g, rest)
    | none =>
      match Reader.bytesToErr rest with
      | some (bs, g, r) => some (e.bytes ++ bs, g, r)
      | none => none

/-! ## Facts about `bytes.Index` -/

theorem rn_eq : rn = [13, 10] := by decide

theorem bytesIndex_eq_none_iff (s sep : List Byte) :
    bytesIndex s sep = none ↔ ¬ sep <:+: s := by
  induction s with
  | nil =>
    by_cases h : sep = []
    · simp [bytesIndex, h]
    · simp [bytesIndex, h]
  | cons b t ih =>
    rw [List.infix_cons_iff]
    by_cases h : sep <+: b :: t
    · simp [bytesIndex, h]
    · simp [bytesIndex, h, ih]

theorem bytesIndex_some_split (s sep : List Byte) (i : Nat)
    (h : bytesIndex s sep = some i) :
    s = s.take i ++ (sep ++ s.drop (i + sep.length)) := by
  induction s generalizing i with
  | nil =>
    by_cases hs : sep = []
    · simp [hs]
    · simp [bytesIndex, hs] at h
  | cons b t ih =>
    by_cases hp : sep <+: b :: t
    · simp [bytesIndex, hp] at h
      subst h
      obtain ⟨r, hr⟩ := hp
      rw [← hr]
      simp
    · simp [bytesIndex, hp] at h
      obtain ⟨j, hj, rfl⟩ := h
      have := ih j hj
      have e : j + 1 + sep.length = (j + sep.length) + 1 := by omega
      rw [e, List.take_succ_cons, List.drop_succ_cons, List.cons_append, ← this]

theorem bytesIndex_some_take (s sep : List Byte) (i : Nat) (hsep : sep ≠ [])
    (h : bytesIndex s sep = some i) : ¬ sep <:+: s.take i := by
  induction s generalizing i with
  | nil => simpa using hsep
  | cons b t ih =>
    by_cases hp : sep <+: b :: t
    · simp [bytesIndex, hp] at h
      subst h
      simpa using hsep
    · simp [bytesIndex, hp] at h
      obtain ⟨j, hj, rfl⟩ := h
      rw [List.take_succ_cons, List.infix_cons_iff]
      rintro (h1 | h2)
      · exact hp (h1.trans (List.cons_prefix_cons.2 ⟨rfl, List.take_prefix _ _⟩))
      · exact ih j hj h2

theorem bytesIndex_cons (b : Byte) (t sep : List Byte) :
    bytesIndex (b :: t) sep =
      if sep <+: (b :: t) then some 0 else (bytesIndex t sep).map (· + 1) := rfl

theorem bytesIndex_pair_append (c d : Byte) (hcd : c ≠ d) (a b : List Byte)
    (h : ¬ [c, d] <:+: a) :
    bytesIndex (a ++ [c, d] ++ b) [c, d] = some a.length := by
  induction a with
  | nil =>
    have : [c, d] <+: c :: d :: b := ⟨b, rfl⟩
    show bytesIndex (c :: d :: b) [c, d] = some 0
    rw [bytesIndex_cons, if_pos this]
  | cons x a ih =>
    rw [List.infix_cons_iff, not_or] at h
    have hp : ¬ [c, d] <+: x :: (a ++ [c, d] ++ b) := by
      intro hp
      apply h.1
      cases a with
      | nil =>
        simp at hp
        exact absurd hp.2.symm hcd
      | cons y a =>
        simp at hp ⊢
        exact ⟨hp.1, hp.2⟩
    rw [List.cons_append, List.cons_append, bytesIndex_cons, if_neg hp, ih h.2]
    rfl

theorem bytesIndex_rn_append (a b : List Byte) (h : ¬ rn <:+: a) :
    bytesIndex (a ++ rn ++ b) rn = some a.length := by
  rw [rn_eq] at h ⊢
  exact bytesIndex_pair_append 13 10 (by decide) a b h

theorem mem_iff_singleton_infix (c : Byte) (s : List Byte) : [c] <:+: s ↔ c ∈ s := by
  induction s with
  | nil => simp
  | cons b t ih =>
    rw [List.infix_cons_iff, ih]
    simp [eq_comm]

theorem bytesIndex_byte_none (c : Byte) (s : List Byte) :
    bytesIndex s [c] = none ↔ c ∉ s := by
  rw [bytesIndex_eq_none_iff, mem_iff_singleton_infix]

theorem bytesIndex_byte_append (c : Byte) (a b : List Byte) (h : c ∉ a) :
    bytesIndex (a ++ c :: b) [c] = some a.length := by
  induction a with
  | nil => simp [bytesIndex]
  | cons x a ih =>
    simp only [List.mem_cons, not_or] at h
    have hp : ¬ [c] <+: x :: (a ++ c :: b) := by
      simp
      exact h.1
    rw [List.cons_append, bytesIndex_cons, if_neg hp, ih h.2]
    rfl

theorem bytesIndex_byte_some (c : Byte) (s : List Byte) (i : Nat)
    (h : bytesIndex s [c] = some i) :
    c ∉ s.take i ∧ s = s.take i ++ c :: s.drop (i + 1) := by
  refine ⟨?_, ?_⟩
  · rw [← mem_iff_singleton_infix]
    exact bytesIndex_some_take s [c] i (by simp) h
  · simpa using bytesIndex_some_split s [c] i h

/-! ## Splitting at a single byte -/

theorem splitByte_ne_nil (c : Byte) (s : List Byte) : splitByte c s ≠ [] := by
  induction s with
  | nil => simp [splitByte]
  | cons b t ih =>
    unfold splitByte
    split
    · simp
    · split <;> simp

theorem splitByte_of_not_mem (c : Byte) (s : List Byte) (h : c ∉ s) :
    splitByte c s = [s] := by
  induction s with
  | nil => simp [splitByte]
  | cons b t ih =>
    simp only [List.mem_cons, not_or] at h
    have hb : ¬ b = c := fun e => h.1 e.symm
    simp [splitByte, hb, ih h.2]

theorem splitByte_append_cons (c : Byte) (a b : List Byte) (h : c ∉ a) :
    splitByte c (a ++ c :: b) = a :: splitByte c b := by
  induction a with
  | nil => simp [splitByte]
  | cons x a ih =>
    simp only [List.mem_cons, not_or] at h
    have hb : ¬ x = c := fun e => h.1 e.symm
    simp [splitByte, hb, ih h.2]

theorem genSplit_eq_splitByte (c : Byte) (n : Nat) (s : List Byte) (h : s.length ≤ n) :
    genSplit n s [c] = splitByte c s := by
  induction n generalizing s with
  | zero =>
    have : s = [] := List.length_eq_zero.1 (by omega)
    subst this
    simp [genSplit, splitByte]
  | succ n ih =>
    unfold genSplit
    cases hi : bytesIndex s [c] with
    | none =>
      simp only
      rw [splitByte_of_not_mem c s ((bytesIndex_byte_none c s).1 hi)]
    | some m =>
      simp only
      obtain ⟨h1, h2⟩ := bytesIndex_byte_some c s m hi
      have hl : (s.drop (m + 1)).length ≤ n := by
        have := congrArg List.length h2
        simp only [List.length_append, List.length_cons] at this
        omega
      rw [List.length_singleton, ih _ hl]
      conv_rhs => rw [h2]
      rw [splitByte_append_cons c _ _ h1]

theorem bytesSplit_byte (c : Byte) (s : List Byte) : bytesSplit s [c] = splitByte c s :=
  genSplit_eq_splitByte c s.length s (le_refl _)

theorem splitByte_length (c : Byte) (s : List Byte) :
    (splitByte c s).length = s.count c + 1 := by
  induction s with
  | nil => simp [splitByte]
  | cons b t ih =>
    unfold splitByte
    by_cases hb : b = c
    · simp [hb, ih]
    · rw [if_neg hb, List.count_cons_of_ne (Ne.symm hb)]
      cases hs : splitByte c t with
      | nil => exact absurd hs (splitByte_ne_nil c t)
      | cons h r =>
        rw [hs] at ih
        simpa using ih

theorem joinByte_splitByte (c : Byte) (s : List Byte) : joinByte c (splitByte c s) = s := by
  induction s with
  | nil => simp [splitByte, joinByte]
  | cons b t ih =>
    unfold splitByte
    by_cases hb : b = c
    · rw [if_pos hb]
      cases hs : splitByte c t with
      | nil => exact absurd hs (splitByte_ne_nil c t)
      | cons h r =>
        rw [hs] at ih
        simp [joinByte, ih, hb]
    · rw [if_neg hb]
      cases hs : splitByte c t with
      | nil => exact absurd hs (splitByte_ne_nil c t)
      | cons h r =>
        rw [hs] at ih
        cases r with
        | nil => simpa [joinByte] using ih
        | cons q r => 
          simp only [joinByte] at ih ⊢
          simp [← ih]

theorem splitByte_not_mem (c : Byte) (s : List Byte) : ∀ p ∈ splitByte c s, c ∉ p := by
  induction s with
  | nil => simp [splitByte]
  | cons b t ih =>
    unfold splitByte
    by_cases hb : b = c
    · rw [if_pos hb]
      intro p hp
      rcases List.mem_cons.1 hp with rfl | hp
      · simp
      · exact ih p hp
    · rw [if_neg hb]
      cases hs : splitByte c t with
      | nil => exact absurd hs (splitByte_ne_nil c t)
      | cons h r =>
        rw [hs] at ih
        intro p hp
        rcases List.mem_cons.1 hp with rfl | hp
        · have := ih h (List.mem_cons_self _ _)
          simp only [List.mem_cons, not_or]
          exact ⟨fun e => hb e.symm, this⟩
        · exact ih p (List.mem_cons_of_mem _ hp)

/-! ## The line decoders -/

theorem ascii_space : ascii " " = [space] := by decide
theorem ascii_slash : ascii "/" = [slash] := by decide
theorem ascii_colon : ascii ":" = [colon] := by decide
theorem ascii_http_slash : ascii " HTTP/" = space :: (ascii "HTTP" ++ [slash]) := by decide
theorem slash_not_mem_http : slash ∉ ascii "HTTP" := by decide
theorem space_not_mem_http : space ∉ ascii "HTTP" := by decide
theorem space_ne_slash : space ≠ slash := by decide

theorem splitByte_three (c : Byte) (s a b d : List Byte) (h : splitByte c s = [a, b, d]) :
    s = a ++ c :: (b ++ c :: d) := by
  have := joinByte_splitByte c s
  rw [h] at this
  simpa [joinByte] using this.symm

theorem splitByte_two (c : Byte) (s a b : List Byte) (h : splitByte c s = [a, b]) :
    s = a ++ c :: b ∧ c ∉ a ∧ c ∉ b := by
  have := joinByte_splitByte c s
  have hm := splitByte_not_mem c s
  rw [h] at this hm
  exact ⟨by simpa [joinByte] using this.symm, hm a (by simp), hm b (by simp)⟩

theorem parseRequestLine_of_split (line f1 f2 f3 v : List Byte)
    (h : bytesSplit line (ascii " ") = [f1, f2, f3])
    (hv : bytesSplit f3 (ascii "/") = [ascii "HTTP", v]) :
    parseRequestLine line = (f1, f2, v, none) := by
  unfold parseRequestLine
  simp [h, hv]

theorem parseHeaderLine_err_of_mem (line : List Byte) (h : colon ∈ line) :
    (parseHeaderLine line).2.2 = none := by
  unfold parseHeaderLine bytesCut
  rw [ascii_colon]
  cases hi : bytesIndex line [colon] with
  | none => exact absurd h ((bytesIndex_byte_none colon line).1 hi)
  | some i => simp

/-! ## The byte source and the line reader -/

theorem rn_length : rn.length = 2 := by decide
theorem rn_ne_nil : rn ≠ [] := by decide

theorem read_nil (n : Nat) : Reader.read [] n = ([], some GoError.EOF, []) := rfl

theorem read_cons (e : ReadEvent) (rest : Reader) (n : Nat) :
    Reader.read (e :: rest) n =
      if e.bytes.length ≤ n then (e.bytes, e.err, rest)
      else (e.bytes.take n, none, { bytes := e.bytes.drop n, err := e.err } :: rest) := rfl

theorem read_content (reader : Reader) (n : Nat) (chunk : List Byte) (e : Option GoError)
    (r1 : Reader) (hr : reader.read n = (chunk, e, r1)) :
    reader.content = chunk ++ r1.content := by
  cases reader with
  | nil =>
    simp only [read_nil, Prod.mk.injEq] at hr
    obtain ⟨rfl, -, rfl⟩ := hr
    rfl
  | cons ev rest =>
    rw [read_cons] at hr
    split_ifs at hr with hl
    · simp only [Prod.mk.injEq] at hr
      obtain ⟨rfl, -, rfl⟩ := hr
      rfl
    · simp only [Prod.mk.injEq] at hr
      obtain ⟨rfl, -, rfl⟩ := hr
      simp only [Reader.content]
      rw [← List.append_assoc, List.take_append_drop]

theorem read_length (reader : Reader) (n : Nat) : (reader.read n).1.length ≤ n := by
  cases reader with
  | nil => simp [read_nil]
  | cons ev rest =>
    rw [read_cons]
    split_ifs with hl
    · exact hl
    · simp

theorem read_cost (reader : Reader) (n : Nat) (hn : 1 ≤ n) (hne : reader ≠ []) :
    (reader.read n).2.2.cost < reader.cost := by
  cases reader with
  | nil => exact absurd rfl hne
  | cons ev rest =>
    rw [read_cons]
    split_ifs with hl
    · simp [Reader.cost]
    · simp only [Reader.cost, List.length_drop]
      omega

theorem read_errFree (reader : Reader) (n : Nat) (hfree : reader.errFree) (hne : reader ≠ []) :
    (reader.read n).2.1 = none ∧ (reader.read n).2.2.errFree := by
  cases reader with
  | nil => exact absurd rfl hne
  | cons ev rest =>
    rw [read_cons]
    have h1 : ev.err = none := hfree ev (List.mem_cons_self _ _)
    have h2 : Reader.errFree rest := fun e he => hfree e (List.mem_cons_of_mem _ he)
    split_ifs with hl
    · exact ⟨h1, h2⟩
    · refine ⟨rfl, ?_⟩
      intro e he
      rcases List.mem_cons.1 he with rfl | he
      · exact h1
      · exact h2 e he

theorem readLine_step (fuel : Nat) (reader : Reader) (n : Nat) (data chunk : List Byte)
    (e : Option GoError) (r1 : Reader) (hr : reader.read n = (chunk, e, r1)) :
    readLine (fuel + 1) reader n data =
      match (if chunk = [] then none else bytesIndex (data ++ chunk) rn) with
      | some idx =>
        some (some ((data ++ chunk).take idx), (data ++ chunk).drop (idx + 2), r1, none)
      | none =>
        if e = some GoError.EOF then some (none, data ++ chunk, r1, none)
        else if e ≠ none then some (none, data ++ chunk, r1, e)
        else readLine fuel r1 n (data ++ chunk) := by
  rw [readLine, hr]
  cases chunk with
  | nil => simp
  | cons b t =>
    simp only [List.length_cons, Nat.zero_lt_succ, if_true, rn_length, reduceCtorEq, if_false]

theorem readLine_mono (fuel fuel1 : Nat) (reader : Reader) (n : Nat) (data : List Byte)
    (res : Option (List Byte) × List Byte × Reader × Option GoError)
    (h : readLine fuel reader n data = some res) (hle : fuel ≤ fuel1) :
    readLine fuel1 reader n data = some res := by
  induction fuel generalizing fuel1 reader data with
  | zero => simp [readLine] at h
  | succ fuel ih =>
    obtain ⟨f1, rfl⟩ : ∃ f1, fuel1 = f1 + 1 := ⟨fuel1 - 1, by omega⟩
    rcases hr : reader.read n with ⟨chunk, e, r1⟩
    rw [readLine_step _ _ _ _ _ _ _ hr] at h ⊢
    cases hm : (if chunk = [] then none else bytesIndex (data ++ chunk) rn) with
    | some idx => rw [hm] at h; exact h
    | none =>
      rw [hm] at h
      simp only at h ⊢
      split_ifs at h ⊢ with h1 h2
      · exact h
      · exact h
      · exact ih f1 r1 _ h (by omega)

theorem read_bytesToEOF (reader : Reader) (n : Nat) (hn : 1 ≤ n) (chunk : List Byte)
    (e : Option GoError) (r1 : Reader) (bs : List Byte) (r2 : Reader)
    (hr : reader.read n = (chunk, e, r1)) (he : reader.bytesToEOF = some (bs, r2)) :
    (e = some GoError.EOF ∧ bs = chunk ∧ r2 = r1) ∨
      (e = none ∧ ∃ bs1, bs = chunk ++ bs1 ∧ r1.bytesToEOF = some (bs1, r2) ∧
        r1.cost < reader.cost) := by
  cases reader with
  | nil =>
    simp only [read_nil, Prod.mk.injEq] at hr
    simp only [Reader.bytesToEOF, Option.some.injEq, Prod.mk.injEq] at he
    obtain ⟨rfl, rfl, rfl⟩ := hr
    obtain ⟨rfl, rfl⟩ := he
    exact Or.inl ⟨rfl, rfl, rfl⟩
  | cons ev rest =>
    obtain ⟨bytes, err⟩ := ev
    rw [read_cons] at hr
    simp only at hr
    split_ifs at hr with hl
    · simp only [Prod.mk.injEq] at hr
      obtain ⟨rfl, rfl, rfl⟩ := hr
      cases err with
      | none =>
        right
        simp only [Reader.bytesToEOF] at he
        cases hrest : Reader.bytesToEOF rest with
        | none => simp [hrest] at he
        | some p =>
          obtain ⟨bs1, r3⟩ := p
          simp only [hrest, Option.some.injEq, Prod.mk.injEq] at he
          obtain ⟨rfl, rfl⟩ := he
          exact ⟨rfl, bs1, rfl, rfl, by simp [Reader.cost]⟩
      | some g =>
        cases g <;> simp [Reader.bytesToEOF] at he
        obtain ⟨rfl, rfl⟩ := he
        exact Or.inl ⟨rfl, rfl, rfl⟩
    · simp only [Prod.mk.injEq] at hr
      obtain ⟨rfl, rfl, rfl⟩ := hr
      right
      have hcost : Reader.cost ({ bytes := bytes.drop n, err := err } :: rest) <
          Reader.cost ({ bytes := bytes, err := err } :: rest) := by
        simp only [Reader.cost, List.length_drop]
        omega
      cases err with
      | none =>
        simp only [Reader.bytesToEOF] at he
        cases hrest : Reader.bytesToEOF rest with
        | none => simp [hrest] at he
        | some p =>
          obtain ⟨bs1, r3⟩ := p
          simp only [hrest, Option.some.injEq, Prod.mk.injEq] at he
          obtain ⟨rfl, rfl⟩ := he
          exact ⟨rfl, bytes.drop n ++ bs1, by rw [← List.append_assoc, List.take_append_drop],
            by simp [Reader.bytesToEOF, hrest], hcost⟩
      | some g =>
        cases g <;> simp [Reader.bytesToEOF] at he
        obtain ⟨rfl, rfl⟩ := he
        exact ⟨rfl, bytes.drop n, by simp, by simp [Reader.bytesToEOF], hcost⟩

theorem not_infix_of_append_left (sep a b : List Byte) (h : ¬ sep <:+: a ++ b) : ¬ sep <:+: a :=
  fun h1 => h (h1.trans (List.infix_append' [] a b |>.trans (by simp)))

theorem rn_split_unique (a b x y : List Byte) (ha : ¬ rn <:+: a) (hx : ¬ rn <:+: x)
    (h : a ++ rn ++ b = x ++ rn ++ y) : a = x ∧ b = y := by
  have h1 := bytesIndex_rn_append a b ha
  have h2 := bytesIndex_rn_append x y hx
  rw [h, h2] at h1
  have hlen : x.length = a.length := Option.some.inj h1
  rw [List.append_assoc, List.append_assoc] at h
  obtain ⟨e1, e2⟩ := List.append_inj h hlen.symm
  exact ⟨e1, List.append_cancel_left e2⟩

theorem tail_nil_of_snoc (data p q : List Byte) (b : Byte) (hd : ¬ rn <:+: data)
    (h : data ++ [b] = p ++ (rn ++ q)) : q = [] := by
  rcases List.eq_nil_or_concat q with rfl | ⟨q1, c, rfl⟩
  · rfl
  · exfalso
    apply hd
    have h2 : data ++ [b] = (p ++ rn ++ q1) ++ [c] := by
      rw [h]; simp
    have := List.append_inj' h2 rfl
    exact ⟨p, q1, this.1.symm⟩

theorem readLine_one_byte (fuel : Nat) (reader : Reader) (data line rest : List Byte)
    (hfree : reader.errFree) (hd : ¬ rn <:+: data) (hl : ¬ rn <:+: line)
    (hc : data ++ reader.content = line ++ rn ++ rest) (hf : reader.cost + 1 ≤ fuel) :
    ∃ r1, readLine fuel reader 1 data = some (some line, [], r1, none) ∧ r1.errFree ∧
      r1.content = rest ∧ r1.cost < reader.cost := by
  induction fuel generalizing reader data with
  | zero => omega
  | succ fuel ih =>
    have hne : reader ≠ [] := by
      rintro rfl
      apply hd
      simp only [Reader.content, List.append_nil] at hc
      exact ⟨line, rest, hc.symm⟩
    rcases hr : reader.read 1 with ⟨chunk, e, r1⟩
    have hcont := read_content reader 1 chunk e r1 hr
    have hlen := read_length reader 1
    have hcost := read_cost reader 1 (le_refl _) hne
    obtain ⟨he, hfree1⟩ := read_errFree reader 1 hfree hne
    rw [hr] at hlen hcost he hfree1
    simp only at hlen hcost he hfree1
    subst he
    rw [readLine_step _ _ _ _ _ _ _ hr]
    rw [hcont, ← List.append_assoc] at hc
    cases hm : (if chunk = [] then none else bytesIndex (data ++ chunk) rn) with
    | none =>
      have hd1 : ¬ rn <:+: data ++ chunk := by
        by_cases hch : chunk = []
        · simpa [hch] using hd
        · rw [← bytesIndex_eq_none_iff]
          simpa [hch] using hm
      obtain ⟨r2, h1, h2, h3, h4⟩ := ih r1 (data ++ chunk) hfree1 hd1 hc (by omega)
      simp only [reduceCtorEq, if_false, ne_eq, not_true_eq_false]
      exact ⟨r2, h1, h2, h3, by omega⟩
    | some idx =>
      have hch : chunk ≠ [] := by
        rintro rfl
        simp at hm
      simp only [hch, if_false] at hm
      obtain ⟨b, rfl⟩ : ∃ b, chunk = [b] := by
        match chunk, hch, hlen with
        | [b], _, _ => exact ⟨b, rfl⟩
        | _ :: _ :: _, _, hlen => simp at hlen
      have hsplit := bytesIndex_some_split _ _ _ hm
      rw [rn_length] at hsplit
      have hq := tail_nil_of_snoc data _ _ b hd hsplit
      have hp := bytesIndex_some_take _ _ _ rn_ne_nil hm
      rw [hq, List.append_nil] at hsplit
      rw [hsplit, ← List.append_nil (List.take idx (data ++ [b]) ++ rn),
        List.append_assoc (List.take idx (data ++ [b]) ++ rn)] at hc
      simp only [List.nil_append] at hc
      obtain ⟨e1, e2⟩ := rn_split_unique _ _ _ _ hp hl hc
      simp only
      rw [hq, e1]
      exact ⟨r1, rfl, hfree1, e2, hcost⟩

theorem readLineCalls_succ (fuel n k : Nat) (reader : Reader) (data : List Byte) :
    readLineCalls fuel n (k + 1) reader data =
      match readLine fuel reader n data with
      | none => none
      | some (line, data1, reader1, err) =>
        match readLineCalls fuel n k reader1 data1 with
        | none => none
        | some (rest, data2, reader2) => some ((line, err) :: rest, data2, reader2) := rfl

/-! ## The request assembler -/

theorem parseLoop_succ (n fuel : Nat) (s : ParseVars) :
    parseLoop n (fuel + 1) s =
    if s.state = RequestState.End then some s.finish
    else if s.state = RequestState.BodyLine ∧ s.hasBody = false then some s.finish
    else
      match readLine fuel s.reader n s.data with
      | none => none
      | some (line, data, reader, _) =>
        match s.state with
        | RequestState.RequestLine =>
          match parseRequestLine (line.getD []) with
          | (_, _, _, some err) => some (none, some err)
          | (method, target, version, none) =>
            parseLoop n fuel
              { s with reader := reader, data := data, method := method, target := target,
                       version := version, state := RequestState.HeaderLine }
        | RequestState.HeaderLine =>
          if line.getD [] = [] then
            parseLoop n fuel
              { s with reader := reader, data := data, state := RequestState.BodyLine }
          else
            match parseHeaderLine (line.getD []) with
            | (_, _, some err) => some (none, some err)
            | (header, value, none) =>
              parseLoop n fuel
                { s with reader := reader, data := data,
                         headers := s.headers.set header value,
                         hasBody := if header = ascii "Content-Length" then true
                                    else s.hasBody }
        | RequestState.BodyLine =>
          parseLoop n fuel { s with reader := reader, data := data, state := RequestState.End }
        | RequestState.End => parseLoop n fuel { s with reader := reader, data := data } := by
  rw [parseLoop]

theorem parseLoop_mono (n fuel fuel1 : Nat) (s : ParseVars)
    (res : Option Request × Option GoError)
    (h : parseLoop n fuel s = some res) (hle : fuel ≤ fuel1) :
    parseLoop n fuel1 s = some res := by
  induction fuel generalizing fuel1 s with
  | zero => simp [parseLoop] at h
  | succ fuel ih =>
    obtain ⟨f1, rfl⟩ : ∃ f1, fuel1 = f1 + 1 := ⟨fuel1 - 1, by omega⟩
    rw [parseLoop_succ] at h ⊢
    split_ifs at h ⊢ with h1 h2
    · exact h
    · exact h
    · cases hrl : readLine fuel s.reader n s.data with
      | none => simp [hrl] at h
      | some val =>
        rw [readLine_mono fuel f1 _ _ _ val hrl (by omega)]
        rw [hrl] at h
        obtain ⟨line, data, reader, e⟩ := val
        simp only at h ⊢
        cases hs : s.state with
        | RequestLine =>
          simp only [hs] at h ⊢
          rcases hp : parseRequestLine (line.getD []) with ⟨m, t, v, eo⟩
          rw [hp] at h
          cases eo with
          | some err => exact h
          | none => exact ih f1 _ h (by omega)
        | HeaderLine =>
          simp only [hs] at h ⊢
          split_ifs at h ⊢ with hl
          · exact ih f1 _ h (by omega)
          · rcases hp : parseHeaderLine (line.getD []) with ⟨hd, vl, eo⟩
            rw [hp] at h
            cases eo with
            | some err => exact h
            | none => exact ih f1 _ h (by omega)
        | BodyLine =>
          simp only [hs] at h ⊢
          exact ih f1 _ h (by omega)
        | End =>
          simp only [hs] at h ⊢
          exact ih f1 _ h (by omega)

theorem HeaderMap.set_of_not_mem (acc : HeaderMap) (k v : List Byte)
    (h : k ∉ acc.map Prod.fst) : HeaderMap.set acc k v = acc ++ [(k, v)] := by
  induction acc with
  | nil => rfl
  | cons p rest ih =>
    obtain ⟨k1, v1⟩ := p
    simp only [List.map_cons, List.mem_cons, not_or] at h
    have hk : ¬ k1 = k := fun e => h.1 e.symm
    simp only [HeaderMap.set, hk, if_false, List.cons_append, ih h.2]

theorem not_rn_infix_nil : ¬ rn <:+: ([] : List Byte) := by simp [rn_eq]

theorem parseLoop_headers (m t v : List Byte) (hs : List (List Byte)) (B : List Byte)
    (acc : HeaderMap) (reader : Reader) (fuel : Nat)
    (hh : ∀ h ∈ hs, colon ∈ h ∧ ¬ rn <:+: h)
    (hnd : (acc.map Prod.fst ++ hs.map (fun h => (parseHeaderLine h).1)).Nodup)
    (hcl : ∀ h ∈ hs, (parseHeaderLine h).1 ≠ ascii "Content-Length")
    (hfree : reader.errFree) (hc : reader.content = joinLines hs ++ rn ++ B)
    (hf : reader.cost + 3 ≤ fuel) :
    parseLoop 1 fuel
        { reader := reader, data := [], method := m, target := t, version := v,
          headers := acc, state := RequestState.HeaderLine, hasBody := false } =
      some (some { Method := m, Target := t, Version := v,
                   headers := acc ++ hs.map (fun h =>
                     ((parseHeaderLine h).1, (parseHeaderLine h).2.1)),
                   body := [] }, none) := by
  induction hs generalizing acc reader fuel with
  | nil =>
    obtain ⟨f, rfl⟩ : ∃ f, fuel = f + 1 := ⟨fuel - 1, by omega⟩
    have hc1 : [] ++ reader.content = [] ++ rn ++ B := by rw [hc]; simp [joinLines]
    obtain ⟨r1, h1, h2, h3, h4⟩ := readLine_one_byte f reader [] [] B hfree
      not_rn_infix_nil not_rn_infix_nil hc1 (by omega)
    rw [parseLoop_succ]
    simp only [reduceCtorEq, if_false, false_and, h1, Option.getD_some, if_true]
    obtain ⟨g, rfl⟩ : ∃ g, f = g + 1 := ⟨f - 1, by omega⟩
    rw [parseLoop_succ]
    simp [ParseVars.finish]
  | cons h hs ih =>
    obtain ⟨f, rfl⟩ : ∃ f, fuel = f + 1 := ⟨fuel - 1, by omega⟩
    have hc1 : [] ++ reader.content = h ++ rn ++ (joinLines hs ++ rn ++ B) := by
      rw [hc]; simp [joinLines]
    obtain ⟨hcol, hrn⟩ := hh h (List.mem_cons_self _ _)
    obtain ⟨r1, h1, h2, h3, h4⟩ := readLine_one_byte f reader [] h _ hfree
      not_rn_infix_nil hrn hc1 (by omega)
    have hne : h ≠ [] := by
      rintro rfl
      simp at hcol
    have he := parseHeaderLine_err_of_mem h hcol
    rcases hp : parseHeaderLine h with ⟨name, value, eo⟩
    rw [hp] at he
    simp only at he
    subst he
    have hname : name ∉ acc.map Prod.fst := by
      intro hmem
      rw [List.nodup_append] at hnd
      exact hnd.2.2 hmem (by simp [hp])
    have hncl : ¬ name = ascii "Content-Length" := by
      have := hcl h (List.mem_cons_self _ _)
      rwa [hp] at this
    rw [parseLoop_succ]
    simp only [reduceCtorEq, if_false, false_and, h1, Option.getD_some, hne, hp, hncl,
      HeaderMap.set_of_not_mem acc name value hname]
    rw [ih (acc ++ [(name, value)]) r1 f (fun x hx => hh x (List.mem_cons_of_mem _ hx)) ?_
      (fun x hx => hcl x (List.mem_cons_of_mem _ hx)) h2 (by rw [h3, List.append_assoc])
      (by omega)]
    · simp [hp]
    · simpa [hp] using hnd

/-! ## The specification's claims -/

/-- C1 (as amended): with the default chunk size 1, for every request line `L`
that contains no CR LF and that `parseRequestLine` decodes to `(m, t, v)`, every
list of header lines (each with a `':'` and no CR LF, with pairwise distinct
names, none named `Content-Length`) and every trailing bytes `B`, `parseRequest`
on a source that delivers `L CRLF h_1 CRLF ... h_n CRLF CRLF B` without error
returns, given enough fuel, no error and the Request with method `m`, target
`t`, version `v`, exactly the decoded headers, and an empty body. -/
theorem parseRequest_wellformed (L : List Byte) (hs : List (List Byte)) (B m t v : List Byte)
    (reader : Reader) (fuel : Nat)
    (hL : parseRequestLine L = (m, t, v, none)) (hLrn : ¬ rn <:+: L)
    (hh : ∀ h ∈ hs, colon ∈ h ∧ ¬ rn <:+: h)
    (hnd : (hs.map (fun h => (parseHeaderLine h).1)).Nodup)
    (hcl : ∀ h ∈ hs, (parseHeaderLine h).1 ≠ ascii "Content-Length")
    (hfree : reader.errFree)
    (hc : reader.content = L ++ rn ++ joinLines hs ++ rn ++ B)
    (hf : reader.cost + 4 ≤ fuel) :
    parseRequest fuel bufSize reader =
      some (some { Method := m, Target := t, Version := v,
                   headers := hs.map (fun h =>
                     ((parseHeaderLine h).1, (parseHeaderLine h).2.1)),
                   body := [] }, none) := by
  obtain ⟨f, rfl⟩ : ∃ f, fuel = f + 1 := ⟨fuel - 1, by omega⟩
  have hc1 : [] ++ reader.content = L ++ rn ++ (joinLines hs ++ rn ++ B) := by
    rw [hc]; simp
  obtain ⟨r1, h1, h2, h3, h4⟩ := readLine_one_byte f reader [] L _ hfree
    not_rn_infix_nil hLrn hc1 (by omega)
  unfold parseRequest
  rw [parseLoop_succ]
  have hb : bufSize = 1 := rfl
  simp only [reduceCtorEq, if_false, false_and, hb, h1, Option.getD_some, hL]
  have := parseLoop_headers m t v hs B [] r1 f hh (by simpa using hnd) hcl h2
    (by rw [h3]) (by omega)
  simpa using this

/-- Witness of C1: `"GET / HTTP/1.1\r\nHost: x\r\n\r\n"` gives method `GET`,
target `/`, version `1.1`, headers `{Host: " x"}` and an empty body. -/
theorem parseRequest_wellformed_witness :
    parseRequest 40 bufSize (Reader.ofBytes (ascii "GET / HTTP/1.1\r\nHost: x\r\n\r\n")) =
      some (some { Method := ascii "GET", Target := ascii "/", Version := ascii "1.1",
                   headers := [(ascii "Host", ascii " x")], body := [] }, none) :=
  parseRequest_wellformed (ascii "GET / HTTP/1.1") [ascii "Host: x"] [] (ascii "GET")
    (ascii "/") (ascii "1.1") (Reader.ofBytes (ascii "GET / HTTP/1.1\r\nHost: x\r\n\r\n")) 40
    (by decide) (by decide) (by decide) (by decide) (by decide) (by decide) (by decide)
    (by decide)

/-- Counterexample to C1 as stated: the request line `"GET /\r\nx HTTP/1.1"` is
decoded by `parseRequestLine` to `(GET, "/\r\nx", 1.1)`, yet `parseRequest` on
that line followed by CR LF CR LF (no headers, no trailing bytes) returns
`ErrInvalidRequestLine` and, whatever the fuel, never the Request the claim
promises: the first line read from the stream is only `"GET /"`. -/
theorem parseRequest_requestLine_with_crlf :
    parseRequestLine (ascii "GET /\r\nx HTTP/1.1") =
        (ascii "GET", ascii "/\r\nx", ascii "1.1", none) ∧
      parseRequest 40 bufSize
          (Reader.ofBytes (ascii "GET /\r\nx HTTP/1.1" ++ rn ++ joinLines [] ++ rn ++ [])) =
        some (none, some GoError.ErrInvalidRequestLine) ∧
      ¬ ∃ fuel, parseRequest fuel bufSize
          (Reader.ofBytes (ascii "GET /\r\nx HTTP/1.1" ++ rn ++ joinLines [] ++ rn ++ [])) =
        some (some { Method := ascii "GET", Target := ascii "/\r\nx", Version := ascii "1.1",
                     headers := [], body := [] }, none) := by
  have h40 : parseRequest 40 bufSize
      (Reader.ofBytes (ascii "GET /\r\nx HTTP/1.1" ++ rn ++ joinLines [] ++ rn ++ [])) =
      some (none, some GoError.ErrInvalidRequestLine) := by decide
  refine ⟨by decide, h40, ?_⟩
  rintro ⟨fuel, hfuel⟩
  have h1 := parseLoop_mono _ _ (max fuel 40) _ _ hfuel (le_max_left _ _)
  have h2 := parseLoop_mono _ _ (max fuel 40) _ _ h40 (le_max_right _ _)
  rw [h1] at h2
  simp at h2

/-- C2: for every chunk size, carry-over buffer and byte source, whenever
`readLine` returns a line together with a remainder, it returns no error, the
line contains no CR LF, and the carry-over followed by the bytes read from the
source during the call is the line, then CR LF, then the remainder. -/
theorem readLine_returns_first_line (fuel : Nat) (reader : Reader) (n : Nat)
    (data line rest : List Byte) (reader1 : Reader) (err : Option GoError)
    (h : readLine fuel reader n data = some (some line, rest, reader1, err)) :
    err = none ∧ ¬ rn <:+: line ∧
      ∃ bytesRead, reader.content = bytesRead ++ reader1.content ∧
        data ++ bytesRead = line ++ rn ++ rest := by
  induction fuel generalizing reader data with
  | zero => simp [readLine] at h
  | succ fuel ih =>
    rcases hr : reader.read n with ⟨chunk, e, r1⟩
    have hc := read_content reader n chunk e r1 hr
    rw [readLine_step _ _ _ _ _ _ _ hr] at h
    cases hm : (if chunk = [] then none else bytesIndex (data ++ chunk) rn) with
    | some idx =>
      rw [hm] at h
      simp only [Option.some.injEq, Prod.mk.injEq] at h
      obtain ⟨rfl, rfl, rfl, rfl⟩ := h
      have hi : bytesIndex (data ++ chunk) rn = some idx := by
        by_cases hch : chunk = []
        · simp [hch] at hm
        · simpa [hch] using hm
      refine ⟨rfl, bytesIndex_some_take _ _ _ rn_ne_nil hi, chunk, hc, ?_⟩
      have := bytesIndex_some_split _ _ _ hi
      rw [rn_length] at this
      rw [List.append_assoc]
      exact this
    | none =>
      rw [hm] at h
      simp only at h
      split_ifs at h with h1 h2
      · simp at h
      · simp at h
      · obtain ⟨he, hl, br, hbr, hd⟩ := ih r1 (data ++ chunk) h
        refine ⟨he, hl, chunk ++ br, ?_, ?_⟩
        · rw [hc, hbr, List.append_assoc]
        · rw [← List.append_assoc]; exact hd

/-- Witness of C2: chunk size 5, carry-over `"x"`, source `"ab\r\ncd\r\n"`: the
line is `"xab"`, the remainder `"c"`. -/
theorem readLine_returns_first_line_witness :
    readLine 10 (Reader.ofBytes (ascii "ab\r\ncd\r\n")) 5 (ascii "x") =
        some (some (ascii "xab"), ascii "c", Reader.ofBytes (ascii "d\r\n"), none) ∧
      ((none : Option GoError) = none ∧ ¬ rn <:+: ascii "xab" ∧
        ∃ bytesRead,
          Reader.content (Reader.ofBytes (ascii "ab\r\ncd\r\n")) =
              bytesRead ++ Reader.content (Reader.ofBytes (ascii "d\r\n")) ∧
            ascii "x" ++ bytesRead = ascii "xab" ++ rn ++ ascii "c") :=
  ⟨by decide,
    readLine_returns_first_line 10 (Reader.ofBytes (ascii "ab\r\ncd\r\n")) 5 (ascii "x")
      (ascii "xab") (ascii "c") (Reader.ofBytes (ascii "d\r\n")) none (by decide)⟩

/-- C3: `readLine` is restartable. With the default chunk size 1 and an empty
carry-over, on a source that delivers without error the given lines (none
containing CR LF), each followed by CR LF, as many successive calls as there
are lines, each given the remainder of the call before, return exactly those
lines in order, each without error, and leave an empty remainder. -/
theorem readLine_restartable (lines : List (List Byte)) (rest : List Byte) (reader : Reader)
    (fuel : Nat) (hl : ∀ l ∈ lines, ¬ rn <:+: l) (hfree : reader.errFree)
    (hc : reader.content = joinLines lines ++ rest) (hf : reader.cost + 1 ≤ fuel) :
    ∃ r1, readLineCalls fuel bufSize lines.length reader [] =
        some (lines.map (fun l => (some l, none)), [], r1) ∧
      r1.errFree ∧ r1.content = rest := by
  induction lines generalizing reader with
  | nil => exact ⟨reader, rfl, hfree, by simpa [joinLines] using hc⟩
  | cons l ls ih =>
    have hc1 : [] ++ reader.content = l ++ rn ++ (joinLines ls ++ rest) := by
      rw [hc]; simp [joinLines]
    obtain ⟨r1, h1, h2, h3, h4⟩ := readLine_one_byte fuel reader [] l _ hfree
      (by simp [rn_eq]) (hl l (List.mem_cons_self _ _)) hc1 hf
    obtain ⟨r2, h5, h6, h7⟩ := ih r1 (fun x hx => hl x (List.mem_cons_of_mem _ hx)) h2 h3
      (by omega)
    refine ⟨r2, ?_, h6, h7⟩
    rw [List.length_cons, readLineCalls_succ]
    show (match readLine fuel reader 1 [] with
      | none => none
      | some (line, data1, reader1, err) =>
        match readLineCalls fuel bufSize ls.length reader1 data1 with
        | none => none
        | some (rest, data2, reader2) => some ((line, err) :: rest, data2, reader2)) = _
    rw [h1]
    simp only [h5, List.map_cons]

/-- Witness of C3: the three lines of `"GET / HTTP/1.1\r\nHost: x\r\n\r\n"`. -/
theorem readLine_restartable_witness :
    ∃ r1, readLineCalls 40 bufSize 3
          (Reader.ofBytes (ascii "GET / HTTP/1.1\r\nHost: x\r\n\r\n")) [] =
        some ([(some (ascii "GET / HTTP/1.1"), none), (some (ascii "Host: x"), none),
               (some [], none)], [], r1) ∧
      r1.errFree ∧ r1.content = [] :=
  readLine_restartable [ascii "GET / HTTP/1.1", ascii "Host: x", []] []
    (Reader.ofBytes (ascii "GET / HTTP/1.1\r\nHost: x\r\n\r\n")) 40
    (by decide) (by decide) (by decide) (by decide)

/-- C4 fails on the code: on the stream `"a\r\nb\r\n"` the repeated calls of
`readLine` yield the lines `a`, `b` with chunk size 1 but only `a` with chunk
size 8. With chunk size 8 the first call reads both lines and returns `a`; the
second call finds the source at end-of-stream, does not scan the carry-over
`"b\r\n"`, and returns no line. -/
theorem readAllLines_depends_on_chunk_size :
    readAllLines 10 1 5 (Reader.ofBytes (ascii "a\r\nb\r\n")) [] =
        some [ascii "a", ascii "b"] ∧
      readAllLines 10 8 5 (Reader.ofBytes (ascii "a\r\nb\r\n")) [] = some [ascii "a"] ∧
      readLineCalls 10 8 2 (Reader.ofBytes (ascii "a\r\nb\r\n")) [] =
        some ([(some (ascii "a"), none), (none, none)], ascii "b\r\n", []) := by
  decide

/-- C5: for every chunk size of at least 1, if the source signals end-of-stream
(after delivering the bytes `bs`) and the carry-over followed by `bs` contains
no CR LF, then `readLine`, given enough fuel, returns no line and no error, and
the remainder is the carry-over followed by all the bytes read. -/
theorem readLine_eof_before_delimiter (fuel : Nat) (reader : Reader) (n : Nat)
    (data bs : List Byte) (r2 : Reader) (hn : 1 ≤ n)
    (he : reader.bytesToEOF = some (bs, r2)) (hno : ¬ rn <:+: data ++ bs)
    (hf : reader.cost + 1 ≤ fuel) :
    readLine fuel reader n data = some (none, data ++ bs, r2, none) := by
  induction fuel generalizing reader data bs with
  | zero => omega
  | succ fuel ih =>
    rcases hr : reader.read n with ⟨chunk, e, r1⟩
    rw [readLine_step _ _ _ _ _ _ _ hr]
    have key := read_bytesToEOF reader n hn chunk e r1 bs r2 hr he
    have hnone : ∀ bs1, bs = chunk ++ bs1 →
        (if chunk = [] then none else bytesIndex (data ++ chunk) rn) = none := by
      intro bs1 hbs
      split_ifs
      · rfl
      · rw [bytesIndex_eq_none_iff]
        apply not_infix_of_append_left rn (data ++ chunk) bs1
        rw [List.append_assoc, ← hbs]
        exact hno
    rcases key with ⟨rfl, rfl, rfl⟩ | ⟨rfl, bs1, rfl, h1, h2⟩
    · rw [hnone [] (by simp)]
      simp
    · rw [hnone bs1 rfl]
      simp only [reduceCtorEq, if_false, ne_eq, not_true_eq_false]
      rw [ih r1 (data ++ chunk) bs1 h1 (by rw [List.append_assoc]; exact hno) (by omega),
        List.append_assoc]

/-- Witness of C5: chunk size 2, carry-over `"x\r"`, source `"abc"` then
end-of-stream. -/
theorem readLine_eof_before_delimiter_witness :
    readLine 10 (Reader.ofBytes (ascii "abc")) 2 (ascii "x\r") =
      some (none, ascii "x\r" ++ ascii "abc", [], none) :=
  readLine_eof_before_delimiter 10 (Reader.ofBytes (ascii "abc")) 2 (ascii "x\r")
    (ascii "abc") [] (by decide) (by decide) (by decide) (by decide)

/-- C6: `parseRequestLine` fails with `ErrInvalidRequestLine` if and only if
splitting the line on single space bytes does not give exactly three fields,
which is the case if and only if the line does not contain exactly two space
bytes; the version check cannot produce or mask this error. -/
theorem parseRequestLine_errInvalidRequestLine_iff (line : List Byte) :
    ((parseRequestLine line).2.2.2 = some GoError.ErrInvalidRequestLine ↔
        (bytesSplit line (ascii " ")).length ≠ 3) ∧
      ((bytesSplit line (ascii " ")).length ≠ 3 ↔ line.count space ≠ 2) := by
  constructor
  · unfold parseRequestLine
    by_cases h : (bytesSplit line (ascii " ")).length ≠ 3
    · simp [h]
    · simp only [h, if_false]
      split_ifs <;> simp
  · rw [ascii_space, bytesSplit_byte, splitByte_length]
    omega

/-- C7: for every line with exactly three space-separated fields,
`parseRequestLine` fails with `ErrInvalidHTTPVersion` if and only if the third
field does not split on `'/'` into exactly two parts of which the first is
`HTTP`; otherwise it succeeds with the first two fields and the second part.
The third field splits so exactly when it is `HTTP/` followed by bytes without
`'/'`. -/
theorem parseRequestLine_errInvalidHTTPVersion_iff (line f1 f2 f3 : List Byte)
    (h : bytesSplit line (ascii " ") = [f1, f2, f3]) :
    ((parseRequestLine line).2.2.2 = some GoError.ErrInvalidHTTPVersion ↔
        ¬ ∃ v, bytesSplit f3 (ascii "/") = [ascii "HTTP", v]) ∧
      (∀ v, bytesSplit f3 (ascii "/") = [ascii "HTTP", v] →
        parseRequestLine line = (f1, f2, v, none)) ∧
      ((∃ v, bytesSplit f3 (ascii "/") = [ascii "HTTP", v]) ↔
        ∃ v, slash ∉ v ∧ f3 = ascii "HTTP/" ++ v) := by
  refine ⟨?_, ?_, ?_⟩
  · unfold parseRequestLine
    simp only [h, List.length_cons, List.length_nil, ne_eq, not_true_eq_false, if_false,
      List.getD_cons_zero, List.getD_cons_succ]
    constructor
    · intro he ⟨v, hv⟩
      simp [hv] at he
    · intro hn
      by_cases h2 : (bytesSplit f3 (ascii "/")).length = 2
      · obtain ⟨x, y, hxy⟩ := List.length_eq_two.1 h2
        by_cases hx : x = ascii "HTTP"
        · exact absurd ⟨y, by rw [hxy, hx]⟩ hn
        · simp [hxy, hx]
      · simp [h2]
  · intro v hv
    unfold parseRequestLine
    simp [h, hv]
  · rw [ascii_slash, bytesSplit_byte]
    constructor
    · rintro ⟨v, hv⟩
      obtain ⟨h1, -, h3⟩ := splitByte_two slash f3 _ _ hv
      refine ⟨v, h3, ?_⟩
      rw [h1]
      have : ascii "HTTP/" = ascii "HTTP" ++ [slash] := by decide
      rw [this]
      simp
    · rintro ⟨v, hv, rfl⟩
      refine ⟨v, ?_⟩
      have : ascii "HTTP/" ++ v = ascii "HTTP" ++ slash :: v := by
        have : ascii "HTTP/" = ascii "HTTP" ++ [slash] := by decide
        rw [this]
        simp
      rw [this, splitByte_append_cons slash _ _ slash_not_mem_http, splitByte_of_not_mem slash v hv]

/-- Witness of C7: `"GET /a/b FTP/1.1"` gives `ErrInvalidHTTPVersion`. -/
theorem parseRequestLine_errInvalidHTTPVersion_witness :
    (parseRequestLine (ascii "GET /a/b FTP/1.1")).2.2.2 =
      some GoError.ErrInvalidHTTPVersion :=
  (parseRequestLine_errInvalidHTTPVersion_iff (ascii "GET /a/b FTP/1.1") (ascii "GET")
    (ascii "/a/b") (ascii "FTP/1.1") (by decide)).1.2
    (fun ⟨_, hv⟩ =>
      (by decide : (bytesSplit (ascii "FTP/1.1") (ascii "/")).head? ≠ some (ascii "HTTP"))
        (congrArg List.head? hv))

/-- C8: `parseRequestLine` validates nothing beyond the split. For every method
`m` and target `t` without a space byte and every version `v` without a space
and without a `'/'` byte, `parseRequestLine (m ++ " " ++ t ++ " HTTP/" ++ v)`
succeeds with exactly `(m, t, v)`; conversely, whenever
`parseRequestLine line` succeeds with `(m, t, v)`, the line is
`m ++ " " ++ t ++ " HTTP/" ++ v`. -/
theorem parseRequestLine_no_validation :
    (∀ m t v : List Byte, space ∉ m → space ∉ t → space ∉ v → slash ∉ v →
        parseRequestLine (m ++ ascii " " ++ t ++ ascii " HTTP/" ++ v) = (m, t, v, none)) ∧
      (∀ line m t v : List Byte, parseRequestLine line = (m, t, v, none) →
        line = m ++ ascii " " ++ t ++ ascii " HTTP/" ++ v) := by
  constructor
  · intro m t v hm ht hv hv2
    have e : m ++ ascii " " ++ t ++ ascii " HTTP/" ++ v =
        m ++ space :: (t ++ space :: (ascii "HTTP" ++ slash :: v)) := by
      rw [ascii_space, ascii_http_slash]
      simp
    have h3 : space ∉ ascii "HTTP" ++ slash :: v := by
      simp only [List.mem_append, List.mem_cons, not_or]
      exact ⟨space_not_mem_http, space_ne_slash, hv⟩
    have hs : bytesSplit (m ++ ascii " " ++ t ++ ascii " HTTP/" ++ v) (ascii " ") =
        [m, t, ascii "HTTP" ++ slash :: v] := by
      rw [e, ascii_space, bytesSplit_byte, splitByte_append_cons space _ _ hm,
        splitByte_append_cons space _ _ ht, splitByte_of_not_mem space _ h3]
    have hv3 : bytesSplit (ascii "HTTP" ++ slash :: v) (ascii "/") = [ascii "HTTP", v] := by
      rw [ascii_slash, bytesSplit_byte, splitByte_append_cons slash _ _ slash_not_mem_http,
        splitByte_of_not_mem slash v hv2]
    exact parseRequestLine_of_split _ _ _ _ _ hs hv3
  · intro line m t v h
    unfold parseRequestLine at h
    by_cases h3 : (bytesSplit line (ascii " ")).length = 3
    · obtain ⟨a, b, c, habc⟩ := List.length_eq_three.1 h3
      simp only [habc, List.length_cons, List.length_nil, ne_eq, not_true_eq_false, if_false,
        List.getD_cons_zero, List.getD_cons_succ] at h
      by_cases h2 : (bytesSplit c (ascii "/")).length = 2
      · obtain ⟨x, y, hxy⟩ := List.length_eq_two.1 h2
        by_cases hx : x = ascii "HTTP"
        · simp [hxy, hx] at h
          obtain ⟨rfl, rfl, rfl⟩ := h
          rw [ascii_space, bytesSplit_byte] at habc
          rw [ascii_slash, bytesSplit_byte] at hxy
          have h1 := splitByte_three space line _ _ _ habc
          have h2 := (splitByte_two slash c _ _ hxy).1
          rw [h1, h2, hx, ascii_space, ascii_http_slash]
          simp
        · simp [hxy, hx] at h
      · simp [h2] at h
    · simp [h3] at h

/-- Witness of C8: `"GET /a/b HTTP/1.1"` gives `(GET, "/a/b", "1.1")`, and the
unknown, empty method of `" /a/b HTTP/1.1"` passes through. -/
theorem parseRequestLine_no_validation_witness :
    parseRequestLine (ascii "GET" ++ ascii " " ++ ascii "/a/b" ++ ascii " HTTP/" ++ ascii "1.1") =
        (ascii "GET", ascii "/a/b", ascii "1.1", none) ∧
      parseRequestLine ([] ++ ascii " " ++ ascii "/a/b" ++ ascii " HTTP/" ++ ascii "1.1") =
        ([], ascii "/a/b", ascii "1.1", none) ∧
      ascii "GET /a/b HTTP/1.1" =
        ascii "GET" ++ ascii " " ++ ascii "/a/b" ++ ascii " HTTP/" ++ ascii "1.1" :=
  ⟨parseRequestLine_no_validation.1 (ascii "GET") (ascii "/a/b") (ascii "1.1")
      (by decide) (by decide) (by decide) (by decide),
    parseRequestLine_no_validation.1 [] (ascii "/a/b") (ascii "1.1")
      (by decide) (by decide) (by decide) (by decide),
    parseRequestLine_no_validation.2 (ascii "GET /a/b HTTP/1.1") (ascii "GET") (ascii "/a/b")
      (ascii "1.1") (by decide)⟩

/-- C9: `parseHeaderLine` fails with `ErrInvalidHTTPHeader` if and only if the
line contains no `':'` byte. -/
theorem parseHeaderLine_errInvalidHTTPHeader_iff (line : List Byte) :
    (parseHeaderLine line).2.2 = some GoError.ErrInvalidHTTPHeader ↔ colon ∉ line := by
  unfold parseHeaderLine bytesCut
  rw [ascii_colon, ← bytesIndex_byte_none]
  cases bytesIndex line [colon] <;> simp

/-- C10: for every line containing a `':'` byte, `parseHeaderLine` succeeds with
a name that contains no `':'` and a value such that the line is the name, then
`":"`, then the value: the cut is at the first `':'` and the value keeps every
byte after it. -/
theorem parseHeaderLine_cut_at_first_colon (line : List Byte) (h : colon ∈ line) :
    (parseHeaderLine line).2.2 = none ∧
      colon ∉ (parseHeaderLine line).1 ∧
      line = (parseHeaderLine line).1 ++ ascii ":" ++ (parseHeaderLine line).2.1 := by
  unfold parseHeaderLine bytesCut
  rw [ascii_colon]
  cases hi : bytesIndex line [colon] with
  | none => exact absurd h ((bytesIndex_byte_none colon line).1 hi)
  | some i =>
    obtain ⟨h1, h2⟩ := bytesIndex_byte_some colon line i hi
    simp only [Bool.not_eq_true, Bool.true_eq_false, if_false, List.length_singleton,
      not_true_eq_false]
    refine ⟨trivial, h1, ?_⟩
    simpa using h2

/-- Witness of C10: `"Host: example.com"` gives the name `Host` and the value
`" example.com"`, the leading space kept. -/
theorem parseHeaderLine_cut_at_first_colon_witness :
    parseHeaderLine (ascii "Host: example.com") =
        (ascii "Host", ascii " example.com", none) ∧
      ((parseHeaderLine (ascii "Host: example.com")).2.2 = none ∧
        colon ∉ (parseHeaderLine (ascii "Host: example.com")).1 ∧
        ascii "Host: example.com" =
          (parseHeaderLine (ascii "Host: example.com")).1 ++ ascii ":" ++
            (parseHeaderLine (ascii "Host: example.com")).2.1) :=
  ⟨by decide, parseHeaderLine_cut_at_first_colon (ascii "Host: example.com") (by decide)⟩

/-! ## The assembler loop, step by step -/

theorem parseLoopState_succ (n fuel : Nat) (s : ParseVars) :
    parseLoopState n (fuel + 1) s =
    if s.state = RequestState.End then some (s.finish, s)
    else if s.state = RequestState.BodyLine ∧ s.hasBody = false then some (s.finish, s)
    else
      match readLine fuel s.reader n s.data with
      | none => none
      | some (line, data, reader, _) =>
        match s.state with
        | RequestState.RequestLine =>
          match parseRequestLine (line.getD []) with
          | (_, _, _, some err) =>
            some ((none, some err), { s with reader := reader, data := data })
          | (method, target, version, none) =>
            parseLoopState n fuel
              { s with reader := reader, data := data, method := method, target := target,
                       version := version, state := RequestState.HeaderLine }
        | RequestState.HeaderLine =>
          if line.getD [] = [] then
            parseLoopState n fuel
              { s with reader := reader, data := data, state := RequestState.BodyLine }
          else
            match parseHeaderLine (line.getD []) with
            | (_, _, some err) =>
              some ((none, some err), { s with reader := reader, data := data })
            | (header, value, none) =>
              parseLoopState n fuel
                { s with reader := reader, data := data,
                         headers := s.headers.set header value,
                         hasBody := if header = ascii "Content-Length" then true
                                    else s.hasBody }
        | RequestState.BodyLine =>
          parseLoopState n fuel
            { s with reader := reader, data := data, state := RequestState.End }
        | RequestState.End =>
          parseLoopState n fuel { s with reader := reader, data := data } := by
  rw [parseLoopState]

theorem parseLoopState_fst (n fuel : Nat) (s : ParseVars) :
    (parseLoopState n fuel s).map Prod.fst = parseLoop n fuel s := by
  induction fuel generalizing s with
  | zero => simp [parseLoopState, parseLoop]
  | succ fuel ih =>
    rw [parseLoopState_succ, parseLoop_succ]
    split_ifs with h1 h2
    · rfl
    · rfl
    · cases hrl : readLine fuel s.reader n s.data with
      | none => rfl
      | some val =>
        obtain ⟨line, data, reader, e⟩ := val
        simp only
        cases hs : s.state with
        | RequestLine =>
          simp only
          rcases hp : parseRequestLine (line.getD []) with ⟨m, t, v, eo⟩
          cases eo with
          | some err => rfl
          | none => exact ih _
        | HeaderLine =>
          simp only
          split_ifs with hl
          · exact ih _
          · rcases hp : parseHeaderLine (line.getD []) with ⟨hd, vl, eo⟩
            cases eo with
            | some err => rfl
            | none => exact ih _
        | BodyLine => exact ih _
        | End => exact ih _

theorem parseRequestState_fst (fuel n : Nat) (reader : Reader) :
    (parseRequestState fuel n reader).map Prod.fst = parseRequest fuel n reader :=
  parseLoopState_fst n fuel _

theorem parseRequest_of_state (fuel n : Nat) (reader : Reader)
    (res : Option Request × Option GoError) (s : ParseVars)
    (h : parseRequestState fuel n reader = some (res, s)) :
    parseRequest fuel n reader = some res := by
  rw [← parseRequestState_fst, h]
  rfl

theorem readLineCalls_cons_iff (f n k : Nat) (r : Reader) (d : List Byte)
    (x : Option (List Byte) × Option GoError)
    (xs : List (Option (List Byte) × Option GoError)) (d2 : List Byte) (r2 : Reader) :
    readLineCalls f n (k + 1) r d = some (x :: xs, d2, r2) ↔
      ∃ d1 r1, readLine f r n d = some (x.1, d1, r1, x.2) ∧
        readLineCalls f n k r1 d1 = some (xs, d2, r2) := by
  rw [readLineCalls_succ]
  cases hrl : readLine f r n d with
  | none => simp
  | some val =>
    obtain ⟨line, d1, r1, e⟩ := val
    simp only [Option.some.injEq, Prod.mk.injEq]
    constructor
    · intro h
      cases hc : readLineCalls f n k r1 d1 with
      | none => rw [hc] at h; simp at h
      | some val2 =>
        obtain ⟨rest, d3, r3⟩ := val2
        rw [hc] at h
        simp only [Option.some.injEq, Prod.mk.injEq, List.cons.injEq] at h
        obtain ⟨⟨rfl, rfl⟩, rfl, rfl⟩ := h
        exact ⟨d1, r1, ⟨rfl, rfl, rfl, rfl⟩, hc⟩
    · rintro ⟨a, b, ⟨h1, rfl, rfl, h2⟩, h3⟩
      rw [h3]
      simp only [Option.some.injEq, Prod.mk.injEq, List.cons.injEq, and_true]
      exact Prod.ext h1 h2

theorem parseHeaderLine_err_of_not_mem (line : List Byte) (h : colon ∉ line) :
    parseHeaderLine line = ([], [], some GoError.ErrInvalidHTTPHeader) := by
  unfold parseHeaderLine bytesCut
  rw [ascii_colon, (bytesIndex_byte_none colon line).2 h]
  simp

theorem parseHeaderLine_eq_of_mem (line : List Byte) (h : colon ∈ line) :
    parseHeaderLine line = ((parseHeaderLine line).1, (parseHeaderLine line).2.1, none) := by
  have := parseHeaderLine_err_of_mem line h
  rcases hp : parseHeaderLine line with ⟨a, b, c⟩
  rw [hp] at this
  simp only at this
  rw [this]

theorem ne_nil_of_colon_mem (line : List Byte) (h : colon ∈ line) : line ≠ [] := by
  rintro rfl
  simp at h

theorem parseLoopState_header (n G f0 : Nat) (r : Reader) (d m t v : List Byte)
    (acc : HeaderMap) (hb : Bool) (h d1 : List Byte) (r1 : Reader) (e : Option GoError)
    (hrl : readLine f0 r n d = some (some h, d1, r1, e)) (hle : f0 ≤ G) (hcol : colon ∈ h) :
    parseLoopState n (G + 1)
        { reader := r, data := d, method := m, target := t, version := v, headers := acc,
          state := RequestState.HeaderLine, hasBody := hb } =
      parseLoopState n G
        { reader := r1, data := d1, method := m, target := t, version := v,
          headers := acc.set (parseHeaderLine h).1 (parseHeaderLine h).2.1,
          state := RequestState.HeaderLine,
          hasBody := if (parseHeaderLine h).1 = ascii "Content-Length" then true else hb } := by
  rw [parseLoopState_succ]
  have hne := ne_nil_of_colon_mem h hcol
  have hp := parseHeaderLine_eq_of_mem h hcol
  simp only [reduceCtorEq, if_false, false_and, readLine_mono f0 G _ _ _ _ hrl hle,
    Option.getD_some, hne]
  rw [hp]

theorem parseLoopState_headers (n f0 : Nat) (m t v : List Byte) (hs : List (List Byte))
    (r : Reader) (d : List Byte) (acc : HeaderMap) (hb : Bool) (d2 : List Byte) (r2 : Reader)
    (G : Nat)
    (hc : readLineCalls f0 n hs.length r d = some (hs.map (fun h => (some h, none)), d2, r2))
    (hcol : ∀ h ∈ hs, colon ∈ h) (hle : f0 ≤ G) :
    parseLoopState n (G + hs.length)
        { reader := r, data := d, method := m, target := t, version := v, headers := acc,
          state := RequestState.HeaderLine, hasBody := hb } =
      parseLoopState n G
        { reader := r2, data := d2, method := m, target := t, version := v,
          headers := acc.insertLines hs, state := RequestState.HeaderLine,
          hasBody := seenContentLength hb hs } := by
  induction hs generalizing r d acc hb G with
  | nil =>
    simp only [List.length_nil, readLineCalls, List.map_nil, Option.some.injEq,
      Prod.mk.injEq, true_and] at hc
    obtain ⟨rfl, rfl⟩ := hc
    rfl
  | cons h hs ih =>
    rw [List.length_cons, List.map_cons, readLineCalls_cons_iff] at hc
    obtain ⟨d1, r1, h1, h2⟩ := hc
    rw [List.length_cons, ← Nat.add_assoc,
      parseLoopState_header n (G + hs.length) f0 r d m t v acc hb h d1 r1 none h1 (by omega)
        (hcol h (List.mem_cons_self _ _))]
    rw [ih r1 d1 _ _ G h2 (fun x hx => hcol x (List.mem_cons_of_mem _ hx)) hle]
    rfl

theorem parseLoopState_blank (n G f0 : Nat) (r : Reader) (d m t v : List Byte)
    (acc : HeaderMap) (line : Option (List Byte)) (d1 : List Byte) (r1 : Reader)
    (e : Option GoError)
    (hrl : readLine f0 r n d = some (line, d1, r1, e)) (hle : f0 ≤ G)
    (hline : line.getD [] = []) :
    parseLoopState n (G + 2)
        { reader := r, data := d, method := m, target := t, version := v, headers := acc,
          state := RequestState.HeaderLine, hasBody := false } =
      some ((some { Method := m, Target := t, Version := v, headers := acc, body := [] }, none),
        { reader := r1, data := d1, method := m, target := t, version := v, headers := acc,
          state := RequestState.BodyLine, hasBody := false }) := by
  rw [parseLoopState_succ]
  simp only [reduceCtorEq, if_false, false_and, readLine_mono f0 (G + 1) _ _ _ _ hrl (by omega),
    hline, if_true]
  rw [parseLoopState_succ]
  simp [ParseVars.finish]

theorem parseLoopState_blank_body (n G f0 : Nat) (r : Reader) (d m t v : List Byte)
    (acc : HeaderMap) (line : Option (List Byte)) (d1 : List Byte) (r1 : Reader)
    (e : Option GoError) (l2 : Option (List Byte)) (d2 : List Byte) (r2 : Reader)
    (e2 : Option GoError)
    (hrl : readLine f0 r n d = some (line, d1, r1, e))
    (hrl2 : readLine f0 r1 n d1 = some (l2, d2, r2, e2)) (hle : f0 ≤ G)
    (hline : line.getD [] = []) :
    parseLoopState n (G + 3)
        { reader := r, data := d, method := m, target := t, version := v, headers := acc,
          state := RequestState.HeaderLine, hasBody := true } =
      some ((some { Method := m, Target := t, Version := v, headers := acc, body := [] }, none),
        { reader := r2, data := d2, method := m, target := t, version := v, headers := acc,
          state := RequestState.End, hasBody := true }) := by
  rw [parseLoopState_succ]
  simp only [reduceCtorEq, if_false, false_and, readLine_mono f0 (G + 2) _ _ _ _ hrl (by omega),
    hline, if_true]
  rw [parseLoopState_succ]
  simp only [reduceCtorEq, if_false, and_false,
    readLine_mono f0 (G + 1) _ _ _ _ hrl2 (by omega)]
  rw [parseLoopState_succ]
  simp [ParseVars.finish]

theorem parseLoopState_bad_header (n G f0 : Nat) (r : Reader) (d m t v : List Byte)
    (acc : HeaderMap) (hb : Bool) (bad d1 : List Byte) (r1 : Reader) (e : Option GoError)
    (hrl : readLine f0 r n d = some (some bad, d1, r1, e)) (hle : f0 ≤ G)
    (hne : bad ≠ []) (hcol : colon ∉ bad) :
    parseLoopState n (G + 1)
        { reader := r, data := d, method := m, target := t, version := v, headers := acc,
          state := RequestState.HeaderLine, hasBody := hb } =
      some ((none, some GoError.ErrInvalidHTTPHeader),
        { reader := r1, data := d1, method := m, target := t, version := v, headers := acc,
          state := RequestState.HeaderLine, hasBody := hb }) := by
  rw [parseLoopState_succ]
  simp only [reduceCtorEq, if_false, false_and, readLine_mono f0 G _ _ _ _ hrl hle,
    Option.getD_some, hne, parseHeaderLine_err_of_not_mem bad hcol]

theorem parseLoopState_request (n G f0 : Nat) (r : Reader) (d : List Byte)
    (line : Option (List Byte)) (d1 : List Byte) (r1 : Reader) (e : Option GoError)
    (m t v : List Byte)
    (hrl : readLine f0 r n d = some (line, d1, r1, e)) (hle : f0 ≤ G)
    (hp : parseRequestLine (line.getD []) = (m, t, v, none)) :
    parseLoopState n (G + 1)
        { reader := r, data := d, method := [], target := [], version := [], headers := [],
          state := RequestState.RequestLine, hasBody := false } =
      parseLoopState n G
        { reader := r1, data := d1, method := m, target := t, version := v, headers := [],
          state := RequestState.HeaderLine, hasBody := false } := by
  rw [parseLoopState_succ]
  simp only [reduceCtorEq, if_false, false_and, readLine_mono f0 G _ _ _ _ hrl hle, hp]

theorem parseLoopState_request_err (n G f0 : Nat) (r : Reader) (d : List Byte)
    (line : Option (List Byte)) (d1 : List Byte) (r1 : Reader) (e : Option GoError)
    (err : GoError)
    (hrl : readLine f0 r n d = some (line, d1, r1, e)) (hle : f0 ≤ G)
    (hp : (parseRequestLine (line.getD [])).2.2.2 = some err) :
    parseLoopState n (G + 1)
        { reader := r, data := d, method := [], target := [], version := [], headers := [],
          state := RequestState.RequestLine, hasBody := false } =
      some ((none, some err),
        { reader := r1, data := d1, method := [], target := [], version := [], headers := [],
          state := RequestState.RequestLine, hasBody := false }) := by
  rw [parseLoopState_succ]
  rcases hq : parseRequestLine (line.getD []) with ⟨a, b, c, eo⟩
  rw [hq] at hp
  simp only at hp
  subst hp
  simp only [reduceCtorEq, if_false, false_and, readLine_mono f0 G _ _ _ _ hrl hle, hq]

/-! ## Sources, chains of calls and the headers map -/

theorem readLineCalls_append (f n : Nat)
    (xs ys : List (Option (List Byte) × Option GoError)) (r : Reader) (d d2 : List Byte)
    (r2 : Reader)
    (h : readLineCalls f n (xs.length + ys.length) r d = some (xs ++ ys, d2, r2)) :
    ∃ d1 r1, readLineCalls f n xs.length r d = some (xs, d1, r1) ∧
      readLineCalls f n ys.length r1 d1 = some (ys, d2, r2) := by
  induction xs generalizing r d with
  | nil =>
    refine ⟨d, r, rfl, ?_⟩
    simpa using h
  | cons x xs ih =>
    have e : (x :: xs).length + ys.length = (xs.length + ys.length) + 1 := by
      simp only [List.length_cons]; omega
    rw [e, List.cons_append, readLineCalls_cons_iff] at h
    obtain ⟨d1, r1, h1, h2⟩ := h
    obtain ⟨d3, r3, h3, h4⟩ := ih r1 d1 h2
    refine ⟨d3, r3, ?_, h4⟩
    rw [List.length_cons, readLineCalls_cons_iff]
    exact ⟨d1, r1, h1, h3⟩

theorem readLineCalls_stream (lines : List (List Byte)) (rest : List Byte) (reader : Reader)
    (fuel : Nat) (hl : ∀ l ∈ lines, ¬ rn <:+: l) (hfree : reader.errFree)
    (hc : reader.content = joinLines lines ++ rest) (hf : reader.cost + 1 ≤ fuel) :
    ∃ r1, readLineCalls fuel 1 lines.length reader [] =
        some (lines.map (fun l => (some l, none)), [], r1) ∧
      r1.errFree ∧ r1.content = rest ∧ r1.cost ≤ reader.cost := by
  induction lines generalizing reader with
  | nil => exact ⟨reader, rfl, hfree, by simpa [joinLines] using hc, le_refl _⟩
  | cons l ls ih =>
    have hc1 : [] ++ reader.content = l ++ rn ++ (joinLines ls ++ rest) := by
      rw [hc]; simp [joinLines]
    obtain ⟨r1, h1, h2, h3, h4⟩ := readLine_one_byte fuel reader [] l _ hfree
      not_rn_infix_nil (hl l (List.mem_cons_self _ _)) hc1 hf
    obtain ⟨r2, h5, h6, h7, h8⟩ := ih r1 (fun x hx => hl x (List.mem_cons_of_mem _ hx)) h2 h3
      (by omega)
    refine ⟨r2, ?_, h6, h7, by omega⟩
    rw [List.length_cons, List.map_cons, readLineCalls_cons_iff]
    exact ⟨[], r1, h1, h5⟩

theorem bytesToEOF_of_errFree (r : Reader) (h : r.errFree) :
    r.bytesToEOF = some (r.content, []) := by
  induction r with
  | nil => rfl
  | cons e rest ih =>
    have h1 : e.err = none := h e (List.mem_cons_self _ _)
    have h2 : Reader.errFree rest := fun x hx => h x (List.mem_cons_of_mem _ hx)
    simp [Reader.bytesToEOF, h1, ih h2, Reader.content]

theorem readLine_at_eof (fuel : Nat) (reader : Reader) (n : Nat)
    (data bs : List Byte) (r2 : Reader) (hn : 1 ≤ n)
    (he : reader.bytesToEOF = some (bs, r2)) (hno : ¬ rn <:+: data ++ bs)
    (hf : reader.cost + 1 ≤ fuel) :
    readLine fuel reader n data = some (none, data ++ bs, r2, none) := by
  induction fuel generalizing reader data bs with
  | zero => omega
  | succ fuel ih =>
    rcases hr : reader.read n with ⟨chunk, e, r1⟩
    rw [readLine_step _ _ _ _ _ _ _ hr]
    have key := read_bytesToEOF reader n hn chunk e r1 bs r2 hr he
    have hnone : ∀ bs1, bs = chunk ++ bs1 →
        (if chunk = [] then none else bytesIndex (data ++ chunk) rn) = none := by
      intro bs1 hbs
      split_ifs
      · rfl
      · rw [bytesIndex_eq_none_iff]
        apply not_infix_of_append_left rn (data ++ chunk) bs1
        rw [List.append_assoc, ← hbs]
        exact hno
    rcases key with ⟨rfl, rfl, rfl⟩ | ⟨rfl, bs1, rfl, h1, h2⟩
    · rw [hnone [] (by simp)]
      simp
    · rw [hnone bs1 rfl]
      simp only [reduceCtorEq, if_false, ne_eq, not_true_eq_false]
      rw [ih r1 (data ++ chunk) bs1 h1 (by rw [List.append_assoc]; exact hno) (by omega),
        List.append_assoc]

theorem readLine_total (fuel : Nat) (reader : Reader) (n : Nat) (data : List Byte)
    (hn : 1 ≤ n) (hf : reader.cost + 1 ≤ fuel) :
    ∃ line d r e, readLine fuel reader n data = some (line, d, r, e) ∧
      r.cost ≤ reader.cost ∧ (reader ≠ [] → r.cost < reader.cost) ∧
      (reader = [] → line = none) := by
  induction fuel generalizing reader data with
  | zero => omega
  | succ fuel ih =>
    rcases hr : reader.read n with ⟨chunk, e, r1⟩
    rw [readLine_step _ _ _ _ _ _ _ hr]
    have hcost : r1.cost ≤ reader.cost ∧ (reader ≠ [] → r1.cost < reader.cost) := by
      cases reader with
      | nil =>
        simp only [read_nil, Prod.mk.injEq] at hr
        obtain ⟨-, -, rfl⟩ := hr
        exact ⟨le_refl _, fun h => absurd rfl h⟩
      | cons ev rest =>
        have := read_cost (ev :: rest) n hn (by simp)
        rw [hr] at this
        exact ⟨by simp only at this; omega, fun _ => this⟩
    have hnil : reader = [] → chunk = [] ∧ e = some GoError.EOF := by
      rintro rfl
      simp only [read_nil, Prod.mk.injEq] at hr
      exact ⟨hr.1.symm, hr.2.1.symm⟩
    cases hm : (if chunk = [] then none else bytesIndex (data ++ chunk) rn) with
    | some idx =>
      refine ⟨_, _, _, _, rfl, hcost.1, hcost.2, ?_⟩
      intro h0
      rw [(hnil h0).1] at hm
      simp at hm
    | none =>
      simp only
      split_ifs with h1 h2
      · exact ⟨_, _, _, _, rfl, hcost.1, hcost.2, fun _ => rfl⟩
      · exact ⟨_, _, _, _, rfl, hcost.1, hcost.2, fun _ => rfl⟩
      · have hne : reader ≠ [] := fun h0 => h1 (hnil h0).2
        obtain ⟨line, d, r, e2, h3, h4, -, -⟩ := ih r1 (data ++ chunk) (by
          have := hcost.2 hne
          omega)
        refine ⟨line, d, r, e2, h3, by omega, fun _ => ?_, fun h0 => absurd h0 hne⟩
        have := hcost.2 hne
        omega

theorem readLine_err_line (fuel : Nat) (reader : Reader) (n : Nat) (data : List Byte)
    (line : Option (List Byte)) (d : List Byte) (r : Reader) (e : GoError)
    (h : readLine fuel reader n data = some (line, d, r, some e)) : line = none := by
  induction fuel generalizing reader data with
  | zero => simp [readLine] at h
  | succ fuel ih =>
    rcases hr : reader.read n with ⟨chunk, e1, r1⟩
    rw [readLine_step _ _ _ _ _ _ _ hr] at h
    cases hm : (if chunk = [] then none else bytesIndex (data ++ chunk) rn) with
    | some idx =>
      rw [hm] at h
      simp at h
    | none =>
      rw [hm] at h
      simp only at h
      split_ifs at h with h1 h2
      · simp at h
      · simp only [Option.some.injEq, Prod.mk.injEq] at h
        exact h.1.symm
      · exact ih r1 _ h

theorem parseRequestLine_nil :
    parseRequestLine [] = ([], [], [], some GoError.ErrInvalidRequestLine) := by decide

theorem HeaderMap.get_set (m : HeaderMap) (k v k1 : List Byte) :
    (HeaderMap.set m k v).get k1 = if k = k1 then some v else m.get k1 := by
  induction m with
  | nil => simp [HeaderMap.set, HeaderMap.get]
  | cons p rest ih =>
    obtain ⟨a, b⟩ := p
    by_cases hak : a = k
    · subst hak
      simp only [HeaderMap.set, if_true, HeaderMap.get]
      split_ifs <;> rfl
    · simp only [HeaderMap.set, hak, if_false, HeaderMap.get, ih]
      by_cases ha1 : a = k1
      · subst ha1
        simp [Ne.symm hak]
      · simp [ha1]

theorem HeaderMap.insertLines_nil (acc : HeaderMap) : acc.insertLines [] = acc := rfl

theorem HeaderMap.insertLines_cons (acc : HeaderMap) (h : List Byte) (hs : List (List Byte)) :
    acc.insertLines (h :: hs) =
      HeaderMap.insertLines (acc.set (parseHeaderLine h).1 (parseHeaderLine h).2.1) hs := rfl

theorem HeaderMap.insertLines_append (acc : HeaderMap) (xs ys : List (List Byte)) :
    acc.insertLines (xs ++ ys) = HeaderMap.insertLines (acc.insertLines xs) ys := by
  simp [HeaderMap.insertLines, List.foldl_append]

theorem HeaderMap.get_insertLines_of_ne (acc : HeaderMap) (hs : List (List Byte))
    (k : List Byte) (h : ∀ x ∈ hs, (parseHeaderLine x).1 ≠ k) :
    (acc.insertLines hs).get k = acc.get k := by
  induction hs generalizing acc with
  | nil => rfl
  | cons x xs ih =>
    rw [HeaderMap.insertLines_cons, ih _ (fun y hy => h y (List.mem_cons_of_mem _ hy)),
      HeaderMap.get_set, if_neg (h x (List.mem_cons_self _ _))]

theorem HeaderMap.get_insertLines_last (acc : HeaderMap) (pre post : List (List Byte))
    (h : List Byte) (hpost : ∀ x ∈ post, (parseHeaderLine x).1 ≠ (parseHeaderLine h).1) :
    (acc.insertLines (pre ++ h :: post)).get (parseHeaderLine h).1 =
      some (parseHeaderLine h).2.1 := by
  rw [HeaderMap.insertLines_append, HeaderMap.insertLines_cons,
    HeaderMap.get_insertLines_of_ne _ post _ hpost, HeaderMap.get_set, if_pos rfl]

theorem seenContentLength_cons (b : Bool) (h : List Byte) (hs : List (List Byte)) :
    seenContentLength b (h :: hs) =
      seenContentLength (if (parseHeaderLine h).1 = ascii "Content-Length" then true else b)
        hs := rfl

theorem seenContentLength_true (hs : List (List Byte)) : seenContentLength true hs = true := by
  induction hs with
  | nil => rfl
  | cons h hs ih =>
    rw [seenContentLength_cons]
    simpa using ih

theorem seenContentLength_of_mem (b : Bool) (hs : List (List Byte))
    (h : ∃ x ∈ hs, (parseHeaderLine x).1 = ascii "Content-Length") :
    seenContentLength b hs = true := by
  induction hs generalizing b with
  | nil => simp at h
  | cons x xs ih =>
    rw [seenContentLength_cons]
    by_cases hx : (parseHeaderLine x).1 = ascii "Content-Length"
    · rw [if_pos hx]
      exact seenContentLength_true xs
    · rw [if_neg hx]
      obtain ⟨y, hy, hy2⟩ := h
      rcases List.mem_cons.1 hy with rfl | hy
      · exact absurd hy2 hx
      · exact ih b ⟨y, hy, hy2⟩

theorem parseLoopState_stream (L : List Byte) (hs : List (List Byte)) (tail m t v : List Byte)
    (reader : Reader) (G : Nat)
    (hL : parseRequestLine L = (m, t, v, none)) (hLrn : ¬ rn <:+: L)
    (hh : ∀ h ∈ hs, colon ∈ h ∧ ¬ rn <:+: h) (hfree : reader.errFree)
    (hc : reader.content = L ++ rn ++ joinLines hs ++ tail) (hG : reader.cost + 1 ≤ G) :
    ∃ r2, parseLoopState 1 (G + hs.length + 1)
          { reader := reader, data := [], method := [], target := [], version := [],
            headers := [], state := RequestState.RequestLine, hasBody := false } =
        parseLoopState 1 G
          { reader := r2, data := [], method := m, target := t, version := v,
            headers := HeaderMap.insertLines [] hs, state := RequestState.HeaderLine,
            hasBody := seenContentLength false hs } ∧
      r2.errFree ∧ r2.content = tail ∧ r2.cost ≤ reader.cost := by
  have hc1 : reader.content = joinLines (L :: hs) ++ tail := by
    rw [hc]; simp [joinLines]
  have hl : ∀ l ∈ L :: hs, ¬ rn <:+: l := by
    intro l hl
    rcases List.mem_cons.1 hl with rfl | hl
    · exact hLrn
    · exact (hh l hl).2
  obtain ⟨r2, h1, h2, h3, h4⟩ := readLineCalls_stream (L :: hs) tail reader
    (reader.cost + 1) hl hfree hc1 (le_refl _)
  rw [List.length_cons, List.map_cons, readLineCalls_cons_iff] at h1
  obtain ⟨d1, r1, h5, h6⟩ := h1
  refine ⟨r2, ?_, h2, h3, h4⟩
  rw [parseLoopState_request 1 (G + hs.length) (reader.cost + 1) reader [] (some L) d1 r1 none
      m t v h5 (by omega) hL,
    parseLoopState_headers 1 (reader.cost + 1) m t v hs r1 d1 [] false [] r2 G h6
      (fun h hm => (hh h hm).1) hG]

theorem parseLoopState_end_of_headers (n G f0 : Nat) (r : Reader) (d m t v : List Byte)
    (acc : HeaderMap) (hb : Bool) (line : Option (List Byte)) (d1 : List Byte) (r1 : Reader)
    (e : Option GoError) (hn : 1 ≤ n)
    (hrl : readLine f0 r n d = some (line, d1, r1, e)) (hle : f0 ≤ G)
    (hline : line.getD [] = []) (hcost : r1.cost + 1 ≤ G) :
    ∃ s, parseLoopState n (G + 3)
        { reader := r, data := d, method := m, target := t, version := v, headers := acc,
          state := RequestState.HeaderLine, hasBody := hb } =
      some ((some { Method := m, Target := t, Version := v, headers := acc, body := [] }, none),
        s) := by
  cases hb with
  | false =>
    exact ⟨_, parseLoopState_blank n (G + 1) f0 r d m t v acc line d1 r1 e hrl (by omega) hline⟩
  | true =>
    obtain ⟨l2, d2, r2, e2, h2, -, -, -⟩ := readLine_total G r1 n d1 hn hcost
    exact ⟨_, parseLoopState_blank_body n G G r d m t v acc line d1 r1 e l2 d2 r2 e2
      (readLine_mono f0 G _ _ _ _ hrl hle) h2 (le_refl _) hline⟩

/-! ## The specification's claims on the response encoder and the assembler -/

theorem parseRequestLine_err_cases (line : List Byte) (e : GoError)
    (h : (parseRequestLine line).2.2.2 = some e) :
    e = GoError.ErrInvalidRequestLine ∨ e = GoError.ErrInvalidHTTPVersion := by
  unfold parseRequestLine at h
  simp only at h
  split_ifs at h <;> simp at h <;> simp [← h]

/-! ## Decimal numerals and `strconv.Itoa` -/

theorem toDigitsCore_acc (fuel n : Nat) (ds : List Char) :
    Nat.toDigitsCore 10 fuel n ds = Nat.toDigitsCore 10 fuel n [] ++ ds := by
  induction fuel generalizing n ds with
  | zero => simp [Nat.toDigitsCore]
  | succ fuel ih =>
    simp only [Nat.toDigitsCore]
    split_ifs with h
    · simp
    · rw [ih (n / 10) (Nat.digitChar (n % 10) :: ds), ih (n / 10) [Nat.digitChar (n % 10)]]
      simp

theorem toDigitsCore_fuel (f1 f2 n : Nat) (h1 : n < f1) (h2 : n < f2) :
    Nat.toDigitsCore 10 f1 n [] = Nat.toDigitsCore 10 f2 n [] := by
  induction f1 generalizing f2 n with
  | zero => omega
  | succ f1 ih =>
    obtain ⟨g, rfl⟩ : ∃ g, f2 = g + 1 := ⟨f2 - 1, by omega⟩
    simp only [Nat.toDigitsCore]
    split_ifs with h
    · rfl
    · have hlt : n / 10 < n := Nat.div_lt_self (by omega) (by decide)
      rw [toDigitsCore_acc f1, toDigitsCore_acc g, ih g (n / 10) (by omega) (by omega)]

theorem toDigitsCore_succ (f n : Nat) (ds : List Char) :
    Nat.toDigitsCore 10 (f + 1) n ds =
      if n / 10 = 0 then Nat.digitChar (n % 10) :: ds
      else Nat.toDigitsCore 10 f (n / 10) (Nat.digitChar (n % 10) :: ds) := rfl

theorem toDigits_small (n : Nat) (h : n < 10) : Nat.toDigits 10 n = [Nat.digitChar n] := by
  have h0 : n / 10 = 0 := Nat.div_eq_of_lt h
  simp [Nat.toDigits, Nat.toDigitsCore, h0, Nat.mod_eq_of_lt h]

theorem toDigits_large (n : Nat) (h : 10 ≤ n) :
    Nat.toDigits 10 n = Nat.toDigits 10 (n / 10) ++ [Nat.digitChar (n % 10)] := by
  have h0 : ¬ n / 10 = 0 := by
    intro h0
    have := (Nat.div_eq_zero_iff (by decide : 0 < 10)).1 h0
    omega
  have hlt : n / 10 < n := Nat.div_lt_self (by omega) (by decide)
  show Nat.toDigitsCore 10 (n + 1) n [] =
    Nat.toDigitsCore 10 (n / 10 + 1) (n / 10) [] ++ [Nat.digitChar (n % 10)]
  rw [toDigitsCore_succ, if_neg h0, toDigitsCore_acc,
    toDigitsCore_fuel n (n / 10 + 1) (n / 10) hlt (by omega)]

theorem digitValue_digitByte (d : Nat) (h : d < 10) : digitValue (digitByte d) = some d := by
  interval_cases d <;> decide

theorem digitByte_ne_minus (d : Nat) (h : d < 10) : digitByte d ≠ minusSign := by
  interval_cases d <;> decide

theorem digitByte_eq_zero (d : Nat) (h : d < 10) (h0 : digitByte d = digitZero) : d = 0 := by
  interval_cases d <;> first | rfl | (exact absurd h0 (by decide))

theorem digitValue_some (b : Byte) (d : Nat) (h : digitValue b = some d) :
    d < 10 ∧ b = digitByte d := by
  unfold digitValue at h
  split_ifs at h with hb
  simp only [Option.some.injEq] at h
  have hd : d < 10 := by omega
  have hn : b.toNat = 48 + d := by omega
  refine ⟨hd, ?_⟩
  apply UInt8.ext
  rw [hn]
  interval_cases d <;> decide

theorem natDigits_small (n : Nat) (h : n < 10) : natDigits n = [digitByte n] := by
  simp [natDigits, toDigits_small n h, digitByte]

theorem natDigits_large (n : Nat) (h : 10 ≤ n) :
    natDigits n = natDigits (n / 10) ++ [digitByte (n % 10)] := by
  simp [natDigits, toDigits_large n h, digitByte]

theorem natValueAux_snoc (acc : Nat) (s : List Byte) (b : Byte) (v d : Nat)
    (hs : natValueAux acc s = some v) (hb : digitValue b = some d) :
    natValueAux acc (s ++ [b]) = some (v * 10 + d) := by
  induction s generalizing acc with
  | nil =>
    simp only [natValueAux, Option.some.injEq] at hs
    subst hs
    simp [natValueAux, hb]
  | cons x s ih =>
    simp only [natValueAux, List.cons_append] at hs ⊢
    cases hx : digitValue x with
    | none => simp [hx] at hs
    | some dx =>
      rw [hx] at hs
      simp only at hs ⊢
      exact ih _ hs

theorem natValueAux_snoc_inv (acc : Nat) (s : List Byte) (b : Byte) (n : Nat)
    (h : natValueAux acc (s ++ [b]) = some n) :
    ∃ v d, natValueAux acc s = some v ∧ digitValue b = some d ∧ n = v * 10 + d := by
  induction s generalizing acc with
  | nil =>
    simp only [List.nil_append, natValueAux] at h
    cases hb : digitValue b with
    | none => simp [hb] at h
    | some d =>
      rw [hb] at h
      simp only [natValueAux, Option.some.injEq] at h
      exact ⟨acc, d, rfl, rfl, h.symm⟩
  | cons x s ih =>
    simp only [natValueAux, List.cons_append] at h ⊢
    cases hx : digitValue x with
    | none => simp [hx] at h
    | some dx =>
      rw [hx] at h
      simp only at h ⊢
      exact ih _ h

theorem natValueAux_ge (acc : Nat) (s : List Byte) (v : Nat)
    (h : natValueAux acc s = some v) : acc ≤ v := by
  induction s generalizing acc with
  | nil =>
    simp only [natValueAux, Option.some.injEq] at h
    omega
  | cons x s ih =>
    simp only [natValueAux] at h
    cases hx : digitValue x with
    | none => simp [hx] at h
    | some dx =>
      rw [hx] at h
      have := ih _ h
      omega

theorem natDigits_ne_nil (n : Nat) : natDigits n ≠ [] := by
  by_cases h : n < 10
  · simp [natDigits_small n h]
  · simp [natDigits_large n (by omega)]

theorem natValueAux_natDigits (n : Nat) : natValueAux 0 (natDigits n) = some n := by
  induction n using Nat.strongRecOn with
  | ind n ih =>
    by_cases h : n < 10
    · rw [natDigits_small n h]
      simp [natValueAux, digitValue_digitByte n h]
    · have hlt : n / 10 < n := Nat.div_lt_self (by omega) (by decide)
      rw [natDigits_large n (by omega),
        natValueAux_snoc 0 _ _ (n / 10) (n % 10) (ih (n / 10) hlt)
          (digitValue_digitByte _ (Nat.mod_lt _ (by decide)))]
      congr 1
      omega

theorem natValue_natDigits (n : Nat) : natValue (natDigits n) = some n := by
  unfold natValue
  rw [if_neg (natDigits_ne_nil n), natValueAux_natDigits]

theorem natDigits_head (n : Nat) :
    ∃ b t, natDigits n = b :: t ∧ b ≠ minusSign ∧ (b = digitZero → n = 0 ∧ t = []) := by
  induction n using Nat.strongRecOn with
  | ind n ih =>
    by_cases h : n < 10
    · exact ⟨digitByte n, [], natDigits_small n h, digitByte_ne_minus n h,
        fun h0 => ⟨digitByte_eq_zero n h h0, rfl⟩⟩
    · have hlt : n / 10 < n := Nat.div_lt_self (by omega) (by decide)
      obtain ⟨b, t, h1, h2, h3⟩ := ih (n / 10) hlt
      refine ⟨b, t ++ [digitByte (n % 10)], ?_, h2, ?_⟩
      · rw [natDigits_large n (by omega), h1]
        rfl
      · intro h0
        have := (h3 h0).1
        have := (Nat.div_eq_zero_iff (by decide : 0 < 10)).1 this
        omega

theorem natDigits_of_natValue (s : List Byte) (n : Nat) (h : natValue s = some n)
    (hz : ∀ t, s = digitZero :: t → t = []) : natDigits n = s := by
  induction s using List.reverseRecOn generalizing n with
  | nil => simp [natValue] at h
  | append_singleton s b ih =>
    unfold natValue at h
    rw [if_neg (by simp)] at h
    obtain ⟨v, d, hv, hd, rfl⟩ := natValueAux_snoc_inv 0 s b n h
    obtain ⟨hd10, rfl⟩ := digitValue_some b d hd
    cases s with
    | nil =>
      simp only [natValueAux, Option.some.injEq] at hv
      subst hv
      simp only [Nat.zero_mul, Nat.zero_add, List.nil_append]
      exact natDigits_small d hd10
    | cons x s =>
      have hx : x ≠ digitZero := by
        intro hx
        have := hz (s ++ [digitByte d]) (by rw [hx]; rfl)
        simp at this
      have hs : natValue (x :: s) = some v := by
        unfold natValue
        rw [if_neg (by simp)]
        exact hv
      have ihs := ih v hs (fun t ht => absurd (List.cons.inj ht).1 hx)
      have hv1 : 1 ≤ v := by
        simp only [natValueAux] at hv
        cases hdx : digitValue x with
        | none => simp [hdx] at hv
        | some dx =>
          rw [hdx] at hv
          have hge := natValueAux_ge _ _ _ hv
          obtain ⟨hdx10, hxe⟩ := digitValue_some x dx hdx
          have : dx ≠ 0 := by
            rintro rfl
            exact hx (by rw [hxe]; decide)
          omega
      rw [natDigits_large (v * 10 + d) (by omega)]
      have e1 : (v * 10 + d) / 10 = v := by omega
      have e2 : (v * 10 + d) % 10 = d := by omega
      rw [e1, e2, ihs]

theorem ascii_minus : ascii "-" = [minusSign] := by decide

theorem itoa_of_nonneg (i : Int) (h : 0 ≤ i) : itoa i = natDigits i.toNat := by
  unfold itoa
  rw [if_neg (by omega)]

theorem itoa_of_neg (i : Int) (h : i < 0) : itoa i = minusSign :: natDigits i.natAbs := by
  unfold itoa
  rw [if_pos h, ascii_minus]
  rfl

theorem decimalValue_itoa (i : Int) : decimalValue (itoa i) = some i := by
  by_cases h : i < 0
  · rw [itoa_of_neg i h]
    simp only [decimalValue, if_true, natValue_natDigits]
    rw [Int.ofNat_eq_coe, Int.ofNat_natAbs_of_nonpos (le_of_lt h), neg_neg]
  · rw [itoa_of_nonneg i (by omega)]
    obtain ⟨b, t, h1, h2, -⟩ := natDigits_head i.toNat
    have hv := natValue_natDigits i.toNat
    rw [h1] at hv ⊢
    simp only [decimalValue, h2, if_false, hv]
    rw [Int.ofNat_eq_coe, Int.toNat_of_nonneg (by omega)]

theorem canonicalDecimal_itoa (i : Int) : canonicalDecimal (itoa i) := by
  by_cases h : i < 0
  · rw [itoa_of_neg i h]
    obtain ⟨b, t, h1, -, h3⟩ := natDigits_head i.natAbs
    constructor
    · intro t1 ht
      exact absurd (List.cons.inj ht).1 (by decide)
    · intro t1 ht
      have h4 := (List.cons.inj ht).2
      rw [h1] at h4
      have := (h3 (List.cons.inj h4).1).1
      omega
  · rw [itoa_of_nonneg i (by omega)]
    obtain ⟨b, t, h1, h2, h3⟩ := natDigits_head i.toNat
    rw [h1]
    constructor
    · intro t1 ht
      obtain ⟨hb, rfl⟩ := List.cons.inj ht
      exact (h3 hb).2
    · intro t1 ht
      exact h2 (List.cons.inj ht).1

theorem itoa_unique (s : List Byte) (i : Int) (hv : decimalValue s = some i)
    (hc : canonicalDecimal s) : s = itoa i := by
  cases s with
  | nil => simp [decimalValue] at hv
  | cons b t =>
    simp only [decimalValue] at hv
    by_cases hb : b = minusSign
    · subst hb
      rw [if_pos rfl] at hv
      cases hn : natValue t with
      | none => simp [hn] at hv
      | some n =>
        rw [hn] at hv
        simp only [Option.some.injEq, Int.ofNat_eq_coe] at hv
        have hz : ∀ t1, t = digitZero :: t1 → t1 = [] := by
          intro t1 ht
          exact absurd (by rw [ht]) (hc.2 t1)
        have hd := natDigits_of_natValue t n hn hz
        have hn1 : n ≠ 0 := by
          rintro rfl
          rw [natDigits_small 0 (by decide)] at hd
          exact hc.2 [] (by rw [← hd]; rfl)
        have hi : i < 0 := by omega
        rw [itoa_of_neg i hi]
        have : i.natAbs = n := by omega
        rw [this, hd]
    · rw [if_neg hb] at hv
      cases hn : natValue (b :: t) with
      | none => simp [hn] at hv
      | some n =>
        rw [hn] at hv
        simp only [Option.some.injEq, Int.ofNat_eq_coe] at hv
        have hd := natDigits_of_natValue (b :: t) n hn hc.1
        rw [itoa_of_nonneg i (by omega)]
        have : i.toNat = n := by omega
        rw [this, hd]

/-- C11: for every Response and whatever the status-text lookup returns,
`buildResponse` returns no error and exactly `"HTTP/"`, the version, a space,
the decimal status code, a space, the reason phrase of the status code, the
body and CR LF, and the result is the same for every headers mapping. The
decimal status code written, `itoa status`, is for every integer the one
decimal numeral in shortest form that denotes the status code. -/
theorem buildResponse_status_line (statusText : Int → List Byte) (response : Response) :
    buildResponse statusText response =
        (ascii "HTTP/" ++ response.Version ++ ascii " " ++ itoa response.Status ++ ascii " " ++
          statusText response.Status ++ response.body ++ rn, none) ∧
      (decimalValue (itoa response.Status) = some response.Status ∧
        canonicalDecimal (itoa response.Status) ∧
        ∀ s : List Byte, decimalValue s = some response.Status → canonicalDecimal s →
          s = itoa response.Status) ∧
      ∀ headers : HeaderMap,
        buildResponse statusText { response with headers := headers } =
          buildResponse statusText response := by
  refine ⟨?_, ⟨decimalValue_itoa _, canonicalDecimal_itoa _, ?_⟩, ?_⟩
  · simp [buildResponse]
  · intro s hv hc
    exact itoa_unique s _ hv hc
  · intro headers
    simp [buildResponse]

/-- Witness of C11: version `1.1`, status 200 and an empty body give exactly
`"HTTP/1.1 200 OK\r\n"`, whatever the headers, and `"200"` is the only decimal
numeral in shortest form for 200; the negative status -15 is written `-15`. -/
theorem buildResponse_status_line_witness :
    buildResponse StatusText
        { Version := ascii "1.1", Status := 200,
          headers := [(ascii "Server", ascii "go")], body := [] } =
      (ascii "HTTP/1.1 200 OK\r\n", none) ∧
      ascii "200" = itoa 200 ∧
      buildResponse StatusText
          { Version := ascii "1.1", Status := -15, headers := [], body := ascii "hi" } =
        (ascii "HTTP/1.1 -15 hi\r\n", none) :=
  ⟨(buildResponse_status_line StatusText
      { Version := ascii "1.1", Status := 200,
        headers := [(ascii "Server", ascii "go")], body := [] }).1.trans (by decide),
    (buildResponse_status_line StatusText
      { Version := ascii "1.1", Status := 200,
        headers := [(ascii "Server", ascii "go")], body := [] }).2.1.2.2 (ascii "200")
      (by decide) ⟨fun _ h => absurd (List.cons.inj h).1 (by decide),
        fun _ h => absurd (List.cons.inj h).1 (by decide)⟩,
    (buildResponse_status_line StatusText
      { Version := ascii "1.1", Status := -15, headers := [], body := ascii "hi" }).1.trans
      (by decide)⟩

/-- C12: a decoder error aborts the whole parse. If the line returned by the
first `readLine` call fails `parseRequestLine` with the error `e`, then
`parseRequest` returns `e` (which is `ErrInvalidRequestLine` or
`ErrInvalidHTTPVersion`) and no Request. If the request line decodes, the lines
read next all contain a `':'`, and then a non-empty line without `':'` is read,
then `parseRequest` returns `ErrInvalidHTTPHeader` and no Request. Both hold for
every chunk size and every source, given enough fuel. -/
theorem parseRequest_decoder_error_aborts :
    (∀ (fuel n F : Nat) (reader : Reader) (line : Option (List Byte)) (d : List Byte)
        (r : Reader) (e0 : Option GoError) (e : GoError),
        readLine fuel reader n [] = some (line, d, r, e0) →
        (parseRequestLine (line.getD [])).2.2.2 = some e →
        fuel + 1 ≤ F →
        parseRequest F n reader = some (none, some e) ∧
          (e = GoError.ErrInvalidRequestLine ∨ e = GoError.ErrInvalidHTTPVersion)) ∧
      (∀ (fuel n F : Nat) (reader : Reader) (L : List Byte) (hs : List (List Byte))
        (bad d : List Byte) (r : Reader) (m t v : List Byte),
        readLineCalls fuel n (hs.length + 2) reader [] =
          some ((some L, none) :: (hs.map (fun h => (some h, none)) ++ [(some bad, none)]),
            d, r) →
        parseRequestLine L = (m, t, v, none) →
        (∀ h ∈ hs, colon ∈ h) →
        bad ≠ [] → colon ∉ bad →
        fuel + hs.length + 2 ≤ F →
        parseRequest F n reader = some (none, some GoError.ErrInvalidHTTPHeader)) := by
  constructor
  · intro fuel n F reader line d r e0 e hrl he hF
    obtain ⟨G, rfl⟩ : ∃ G, F = G + 1 := ⟨F - 1, by omega⟩
    refine ⟨?_, parseRequestLine_err_cases _ e he⟩
    exact parseRequest_of_state _ _ _ _ _
      (parseLoopState_request_err n G fuel reader [] line d r e0 e hrl (by omega) he)
  · intro fuel n F reader L hs bad d r m t v hc hL hcol hne hbad hF
    obtain ⟨G, rfl⟩ : ∃ G, F = ((G + 1) + hs.length) + 1 := ⟨F - hs.length - 2, by omega⟩
    rw [readLineCalls_cons_iff] at hc
    obtain ⟨d1, r1, h1, h2⟩ := hc
    have hlen : hs.length + 1 =
        (hs.map (fun h => ((some h : Option (List Byte)), (none : Option GoError)))).length +
          [((some bad : Option (List Byte)), (none : Option GoError))].length := by simp
    rw [hlen] at h2
    obtain ⟨d2, r2, h3, h4⟩ := readLineCalls_append _ _ _ _ _ _ _ _ h2
    rw [List.length_map] at h3
    rw [List.length_singleton, readLineCalls_cons_iff] at h4
    obtain ⟨d3, r3, h5, h6⟩ := h4
    simp only [readLineCalls, Option.some.injEq, Prod.mk.injEq, true_and] at h6
    obtain ⟨rfl, rfl⟩ := h6
    apply parseRequest_of_state
    unfold parseRequestState
    rw [parseLoopState_request n _ fuel reader [] (some L) d1 r1 none m t v h1 (by omega) hL,
      parseLoopState_headers n fuel m t v hs r1 d1 [] false d2 r2 (G + 1) h3 hcol (by omega),
      parseLoopState_bad_header n G fuel r2 d2 m t v _ _ bad d3 r3 none h5 (by omega) hne hbad]

/-- Witness of C12: `"GET /a/b\r\n\r\n"` gives `ErrInvalidRequestLine`, and
`"GET / HTTP/1.1\r\nHost: x\r\nMalformed\r\n\r\n"` gives `ErrInvalidHTTPHeader`. -/
theorem parseRequest_decoder_error_aborts_witness :
    parseRequest 30 bufSize (Reader.ofBytes (ascii "GET /a/b\r\n\r\n")) =
        some (none, some GoError.ErrInvalidRequestLine) ∧
      parseRequest 60 bufSize
          (Reader.ofBytes (ascii "GET / HTTP/1.1\r\nHost: x\r\nMalformed\r\n\r\n")) =
        some (none, some GoError.ErrInvalidHTTPHeader) :=
  ⟨(parseRequest_decoder_error_aborts.1 20 bufSize 30
      (Reader.ofBytes (ascii "GET /a/b\r\n\r\n")) (some (ascii "GET /a/b")) []
      (Reader.ofBytes (ascii "\r\n")) none GoError.ErrInvalidRequestLine
      (by decide) (by decide) (by decide)).1,
    parseRequest_decoder_error_aborts.2 50 bufSize 60
      (Reader.ofBytes (ascii "GET / HTTP/1.1\r\nHost: x\r\nMalformed\r\n\r\n"))
      (ascii "GET / HTTP/1.1") [ascii "Host: x"] (ascii "Malformed") []
      (Reader.ofBytes (ascii "\r\n")) (ascii "GET") (ascii "/") (ascii "1.1")
      (by decide) (by decide) (by decide) (by decide) (by decide) (by decide)⟩

/-- C13: last write wins on duplicate header names. With the default chunk size
1, for every well-formed request (a request line without CR LF that
`parseRequestLine` decodes, header lines with a `':'` and without CR LF, the
blank line, trailing bytes `B`) delivered without error, `parseRequest` returns,
given enough fuel, no error and the Request whose headers map results from
assigning the decoded headers in stream order. That map sends the name of a
header line to the value of that line whenever no later line has the same name,
the names being compared byte for byte (so names that differ in letter case are
separate keys), and it has no entry for a name that no line carries. -/
theorem parseRequest_last_header_wins (L : List Byte) (hs : List (List Byte))
    (B m t v : List Byte) (reader : Reader) (fuel : Nat)
    (hL : parseRequestLine L = (m, t, v, none)) (hLrn : ¬ rn <:+: L)
    (hh : ∀ h ∈ hs, colon ∈ h ∧ ¬ rn <:+: h) (hfree : reader.errFree)
    (hc : reader.content = L ++ rn ++ joinLines hs ++ (rn ++ B))
    (hf : reader.cost + hs.length + 5 ≤ fuel) :
    parseRequest fuel bufSize reader =
        some (some { Method := m, Target := t, Version := v,
                     headers := HeaderMap.insertLines [] hs, body := [] }, none) ∧
      (∀ (pre : List (List Byte)) (h : List Byte) (post : List (List Byte)),
        hs = pre ++ h :: post →
        (∀ x ∈ post, (parseHeaderLine x).1 ≠ (parseHeaderLine h).1) →
        (HeaderMap.insertLines [] hs).get (parseHeaderLine h).1 =
          some (parseHeaderLine h).2.1) ∧
      (∀ k : List Byte, (∀ x ∈ hs, (parseHeaderLine x).1 ≠ k) →
        (HeaderMap.insertLines [] hs).get k = none) := by
  refine ⟨?_, ?_, ?_⟩
  · obtain ⟨G, rfl⟩ : ∃ G, fuel = (G + 3) + hs.length + 1 := ⟨fuel - hs.length - 4, by omega⟩
    obtain ⟨r2, h1, h2, h3, h4⟩ := parseLoopState_stream L hs (rn ++ B) m t v reader (G + 3)
      hL hLrn hh hfree hc (by omega)
    have hc2 : [] ++ r2.content = [] ++ rn ++ B := by rw [h3]; simp
    obtain ⟨r3, h5, h6, h7, h8⟩ := readLine_one_byte (r2.cost + 1) r2 [] [] B h2
      not_rn_infix_nil not_rn_infix_nil hc2 (le_refl _)
    obtain ⟨s, h9⟩ := parseLoopState_end_of_headers 1 G (r2.cost + 1) r2 [] m t v
      (HeaderMap.insertLines [] hs) (seenContentLength false hs) (some []) [] r3 none
      (le_refl _) h5 (by omega) rfl (by omega)
    apply parseRequest_of_state _ _ _ _ s
    unfold parseRequestState
    have hb : bufSize = 1 := rfl
    rw [hb, h1, h9]
  · intro pre h post hs_eq hpost
    rw [hs_eq]
    exact HeaderMap.get_insertLines_last [] pre post h hpost
  · intro k hk
    rw [HeaderMap.get_insertLines_of_ne [] hs k hk]
    rfl

/-- Witness of C13: in `Host: a`, `host: b`, `Host: c` the key `Host` maps to
`" c"` and the key `host` to `" b"`. -/
theorem parseRequest_last_header_wins_witness :
    parseRequest 80 bufSize
        (Reader.ofBytes (ascii "GET / HTTP/1.1\r\nHost: a\r\nhost: b\r\nHost: c\r\n\r\n")) =
      some (some { Method := ascii "GET", Target := ascii "/", Version := ascii "1.1",
                   headers := [(ascii "Host", ascii " c"), (ascii "host", ascii " b")],
                   body := [] }, none) ∧
      HeaderMap.get [(ascii "Host", ascii " c"), (ascii "host", ascii " b")] (ascii "Host") =
        some (ascii " c") ∧
      HeaderMap.get [(ascii "Host", ascii " c"), (ascii "host", ascii " b")] (ascii "host") =
        some (ascii " b") :=
  have h := parseRequest_last_header_wins (ascii "GET / HTTP/1.1")
    [ascii "Host: a", ascii "host: b", ascii "Host: c"] [] (ascii "GET") (ascii "/")
    (ascii "1.1")
    (Reader.ofBytes (ascii "GET / HTTP/1.1\r\nHost: a\r\nhost: b\r\nHost: c\r\n\r\n")) 80
    (by decide) (by decide) (by decide) (by decide) (by decide) (by decide)
  ⟨h.1, h.2.1 [ascii "Host: a", ascii "host: b"] (ascii "Host: c") [] (by decide) (by decide),
    h.2.1 [ascii "Host: a"] (ascii "host: b") [ascii "Host: c"] (by decide) (by decide)⟩

/-- C14: truncated header block. With the default chunk size 1, for every stream
made of a request line (without CR LF, decoded by `parseRequestLine`) and CR LF,
then header lines (with a `':'`, without CR LF), each followed by CR LF, then an
unterminated fragment without CR LF (possibly empty) and end-of-stream,
`parseRequest` returns, given enough fuel, no error and the Request with the
decoded request line, exactly the headers of the complete header lines, and an
empty body. -/
theorem parseRequest_truncated_headers (L : List Byte) (hs : List (List Byte))
    (frag m t v : List Byte) (reader : Reader) (fuel : Nat)
    (hL : parseRequestLine L = (m, t, v, none)) (hLrn : ¬ rn <:+: L)
    (hh : ∀ h ∈ hs, colon ∈ h ∧ ¬ rn <:+: h) (hfrag : ¬ rn <:+: frag)
    (hfree : reader.errFree)
    (hc : reader.content = L ++ rn ++ joinLines hs ++ frag)
    (hf : reader.cost + hs.length + 5 ≤ fuel) :
    parseRequest fuel bufSize reader =
      some (some { Method := m, Target := t, Version := v,
                   headers := HeaderMap.insertLines [] hs, body := [] }, none) := by
  obtain ⟨G, rfl⟩ : ∃ G, fuel = (G + 3) + hs.length + 1 := ⟨fuel - hs.length - 4, by omega⟩
  obtain ⟨r2, h1, h2, h3, h4⟩ := parseLoopState_stream L hs frag m t v reader (G + 3)
    hL hLrn hh hfree hc (by omega)
  have h5 := readLine_at_eof (r2.cost + 1) r2 1 [] r2.content [] (le_refl _)
    (bytesToEOF_of_errFree r2 h2) (by rw [h3]; simpa using hfrag) (le_refl _)
  obtain ⟨s, h9⟩ := parseLoopState_end_of_headers 1 G (r2.cost + 1) r2 [] m t v
    (HeaderMap.insertLines [] hs) (seenContentLength false hs) none _ [] none
    (le_refl _) h5 (by omega) rfl (by simp only [Reader.cost]; omega)
  apply parseRequest_of_state _ _ _ _ s
  unfold parseRequestState
  have hb : bufSize = 1 := rfl
  rw [hb, h1, h9]

/-- Witness of C14: `"GET / HTTP/1.1\r\nHost: x\r\nAcc"` and end-of-stream give
the Request with the single header `Host`. -/
theorem parseRequest_truncated_headers_witness :
    parseRequest 60 bufSize (Reader.ofBytes (ascii "GET / HTTP/1.1\r\nHost: x\r\nAcc")) =
      some (some { Method := ascii "GET", Target := ascii "/", Version := ascii "1.1",
                   headers := [(ascii "Host", ascii " x")], body := [] }, none) :=
  parseRequest_truncated_headers (ascii "GET / HTTP/1.1") [ascii "Host: x"] (ascii "Acc")
    (ascii "GET") (ascii "/") (ascii "1.1")
    (Reader.ofBytes (ascii "GET / HTTP/1.1\r\nHost: x\r\nAcc")) 60
    (by decide) (by decide) (by decide) (by decide) (by decide) (by decide) (by decide)

/-- C16 (as amended): when a header named `Content-Length` was seen,
`parseRequest` makes one more `readLine` call in state `BodyLine`, ignores what
it returns and moves to `End`. With the default chunk size 1, for every
well-formed request with a `Content-Length` header followed by the bytes `B`
after the blank line, delivered without error, `parseRequest` returns, given
enough fuel, no error and a Request with an empty body; if `B` contains a CR LF,
the bytes left unread in the stream are those after the first CR LF of `B`; if
it contains none, the stream is read to its end and `B` is left in the
carry-over buffer, which is dropped. -/
theorem parseRequest_content_length_reads_body_line (L : List Byte) (hs : List (List Byte))
    (B m t v : List Byte) (reader : Reader) (fuel : Nat)
    (hL : parseRequestLine L = (m, t, v, none)) (hLrn : ¬ rn <:+: L)
    (hh : ∀ h ∈ hs, colon ∈ h ∧ ¬ rn <:+: h)
    (hcl : ∃ h ∈ hs, (parseHeaderLine h).1 = ascii "Content-Length")
    (hfree : reader.errFree)
    (hc : reader.content = L ++ rn ++ joinLines hs ++ (rn ++ B))
    (hf : reader.cost + hs.length + 5 ≤ fuel) :
    ∃ s, parseRequestState fuel bufSize reader =
        some ((some { Method := m, Target := t, Version := v,
                      headers := HeaderMap.insertLines [] hs, body := [] }, none), s) ∧
      (∀ b1 b2 : List Byte, B = b1 ++ rn ++ b2 → ¬ rn <:+: b1 →
        s.reader.content = b2 ∧ s.data = []) ∧
      (¬ rn <:+: B → s.reader.content = [] ∧ s.data = B) := by
  obtain ⟨G, rfl⟩ : ∃ G, fuel = (G + 3) + hs.length + 1 := ⟨fuel - hs.length - 4, by omega⟩
  obtain ⟨r2, h1, h2, h3, h4⟩ := parseLoopState_stream L hs (rn ++ B) m t v reader (G + 3)
    hL hLrn hh hfree hc (by omega)
  have hc2 : [] ++ r2.content = [] ++ rn ++ B := by rw [h3]; simp
  obtain ⟨r3, h5, h6, h7, h8⟩ := readLine_one_byte (reader.cost + 1) r2 [] [] B h2
    not_rn_infix_nil not_rn_infix_nil hc2 (by omega)
  have hb : bufSize = 1 := rfl
  have hseen := seenContentLength_of_mem false hs hcl
  unfold parseRequestState
  rw [hb, h1, hseen]
  by_cases hB : rn <:+: B
  · cases hi : bytesIndex B rn with
    | none => exact absurd hB ((bytesIndex_eq_none_iff B rn).1 hi)
    | some i =>
      have hsplit := bytesIndex_some_split B rn i hi
      have htake := bytesIndex_some_take B rn i rn_ne_nil hi
      have hc3 : [] ++ r3.content = B.take i ++ rn ++ B.drop (i + rn.length) := by
        rw [h7, List.nil_append, List.append_assoc]
        exact hsplit
      obtain ⟨r4, h9, h10, h11, h12⟩ := readLine_one_byte (reader.cost + 1) r3 []
        (B.take i) _ h6 not_rn_infix_nil htake hc3 (by omega)
      refine ⟨_, parseLoopState_blank_body 1 G (reader.cost + 1) r2 [] m t v _ (some []) [] r3
        none (some (B.take i)) [] r4 none h5 h9 (by omega) rfl, ?_, fun hno => absurd hB hno⟩
      intro b1 b2 hb12 hb1
      rw [← List.append_assoc] at hsplit
      have := rn_split_unique b1 b2 _ _ hb1 htake (hb12.symm.trans hsplit)
      exact ⟨by rw [h11, this.2], rfl⟩
  · have h9 := readLine_at_eof (reader.cost + 1) r3 1 [] r3.content [] (le_refl _)
      (bytesToEOF_of_errFree r3 h6) (by rw [h7]; simpa using hB) (by omega)
    refine ⟨_, parseLoopState_blank_body 1 G (reader.cost + 1) r2 [] m t v _ (some []) [] r3
      none none _ [] none h5 h9 (by omega) rfl, ?_, fun _ => ⟨rfl, by simp [h7]⟩⟩
    intro b1 b2 hb12 _
    exact absurd ⟨b1, b2, hb12.symm⟩ hB

/-- Witness of C16 as amended: after `"POST / HTTP/1.1\r\nContent-Length: 5\r\n\r\n"`
and the body bytes `"ab\r\ncd"`, the bytes left unread are `"cd"`. -/
theorem parseRequest_content_length_reads_body_line_witness :
    ∃ s, parseRequestState 80 bufSize
          (Reader.ofBytes (ascii "POST / HTTP/1.1\r\nContent-Length: 5\r\n\r\nab\r\ncd")) =
        some ((some { Method := ascii "POST", Target := ascii "/", Version := ascii "1.1",
                      headers := [(ascii "Content-Length", ascii " 5")], body := [] }, none),
          s) ∧
      s.reader.content = ascii "cd" ∧ s.data = [] :=
  have h := parseRequest_content_length_reads_body_line (ascii "POST / HTTP/1.1")
    [ascii "Content-Length: 5"] (ascii "ab\r\ncd") (ascii "POST") (ascii "/") (ascii "1.1")
    (Reader.ofBytes (ascii "POST / HTTP/1.1\r\nContent-Length: 5\r\n\r\nab\r\ncd")) 80
    (by decide) (by decide) (by decide) (by decide) (by decide) (by decide) (by decide)
  h.elim fun s hs => ⟨s, hs.1, hs.2.1 (ascii "ab") (ascii "cd") (by decide) (by decide)⟩

/-- Counterexample to C16 as stated: after the request
`"POST / HTTP/1.1\r\nContent-Length: 5\r\n\r\n"` with the body bytes `"hello"`,
`parseRequest` returns the Request with an empty body, but no byte is left
unread in the stream: the `readLine` call made in state `BodyLine` has read all
of `"hello"` into the carry-over buffer. -/
theorem parseRequest_content_length_consumes_body :
    (parseRequestState 80 bufSize
        (Reader.ofBytes (ascii "POST / HTTP/1.1" ++ rn ++ joinLines [ascii "Content-Length: 5"] ++
          rn ++ ascii "hello"))).map (fun p => (p.1, p.2.reader.content, p.2.data)) =
      some ((some { Method := ascii "POST", Target := ascii "/", Version := ascii "1.1",
                    headers := [(ascii "Content-Length", ascii " 5")], body := [] }, none),
        [], ascii "hello") ∧
      ([] : List Byte) ≠ ascii "hello" := by
  decide

/-- C15 (as amended): for every chunk size of at least 1 and every stream that
signals end-of-stream before the first CR LF has been received, `readLine`
itself reports no error (no line, the bytes read as remainder), but
`parseRequest` decodes the missing line as an empty request line and returns,
given enough fuel, `ErrInvalidRequestLine` and no Request. -/
theorem parseRequest_eof_in_first_line (fuel n : Nat) (reader : Reader) (bs : List Byte)
    (r2 : Reader) (hn : 1 ≤ n) (he : reader.bytesToEOF = some (bs, r2))
    (hno : ¬ rn <:+: bs) (hf : reader.cost + 2 ≤ fuel) :
    readLine (fuel - 1) reader n [] = some (none, bs, r2, none) ∧
      parseRequest fuel n reader = some (none, some GoError.ErrInvalidRequestLine) := by
  have h1 := readLine_at_eof (fuel - 1) reader n [] bs r2 hn he (by simpa using hno)
    (by omega)
  rw [List.nil_append] at h1
  refine ⟨h1, ?_⟩
  obtain ⟨G, rfl⟩ : ∃ G, fuel = G + 1 := ⟨fuel - 1, by omega⟩
  exact parseRequest_of_state _ _ _ _ _
    (parseLoopState_request_err n G G reader [] none bs r2 none _ h1 (le_refl _)
      (by rw [Option.getD_none, parseRequestLine_nil]))

/-- Witness of C15 as amended: the empty stream. -/
theorem parseRequest_eof_in_first_line_witness :
    readLine (5 - 1) [] bufSize [] = some (none, [], [], none) ∧
      parseRequest 5 bufSize [] = some (none, some GoError.ErrInvalidRequestLine) :=
  parseRequest_eof_in_first_line 5 bufSize [] [] [] (by decide) (by decide) (by decide)
    (by decide)

/-- Counterexample to C15 as stated: on the well-formed request line
`"GET / HTTP/1.1"` followed immediately by end-of-stream, `parseRequest`
returns `ErrInvalidRequestLine`. -/
theorem parseRequest_eof_after_request_line :
    parseRequest 40 bufSize (Reader.ofBytes (ascii "GET / HTTP/1.1")) =
      some (none, some GoError.ErrInvalidRequestLine) := by
  decide

theorem parseLoop_shape (res : Option Request × Option GoError) (s : ParseVars)
    (h : res = s.finish) : (∃ req, res = (some req, none)) ∨ ∃ e, res = (none, some e) :=
  Or.inl ⟨_, h⟩

theorem parseLoop_total (n : Nat) (hn : 1 ≤ n) (fuel : Nat) (s : ParseVars)
    (hf : s.reader.cost + s.state.remaining ≤ fuel) :
    ∃ res, parseLoop n fuel s = some res ∧
      ((∃ req, res = (some req, none)) ∨ ∃ e, res = (none, some e)) := by
  induction fuel generalizing s with
  | zero =>
    cases hs : s.state <;> rw [hs] at hf <;> simp [RequestState.remaining] at hf
  | succ f ih =>
    rw [parseLoop_succ]
    split_ifs with h1 h2
    · exact ⟨_, rfl, parseLoop_shape _ s rfl⟩
    · exact ⟨_, rfl, parseLoop_shape _ s rfl⟩
    · have hrem : 2 ≤ s.state.remaining := by
        cases hs : s.state <;> simp [RequestState.remaining]
        exact h1 hs
      obtain ⟨line, d, r, e, hrl, hle, hlt, hnil⟩ :=
        readLine_total f s.reader n s.data hn (by omega)
      rw [hrl]
      simp only
      cases hs : s.state with
      | RequestLine =>
        simp only
        rw [hs] at hf
        simp only [RequestState.remaining] at hf
        rcases hp : parseRequestLine (line.getD []) with ⟨m, t, v, eo⟩
        cases eo with
        | some err => exact ⟨_, rfl, Or.inr ⟨err, rfl⟩⟩
        | none =>
          have hne : s.reader ≠ [] := by
            intro h0
            rw [hnil h0, Option.getD_none, parseRequestLine_nil] at hp
            simp at hp
          have := hlt hne
          exact ih _ (by simp only [RequestState.remaining]; omega)
      | HeaderLine =>
        simp only
        rw [hs] at hf
        simp only [RequestState.remaining] at hf
        split_ifs with hl
        · exact ih _ (by simp only [RequestState.remaining]; omega)
        · rcases hp : parseHeaderLine (line.getD []) with ⟨hd, vl, eo⟩
          cases eo with
          | some err => exact ⟨_, rfl, Or.inr ⟨err, rfl⟩⟩
          | none =>
            have hne : s.reader ≠ [] := by
              intro h0
              rw [hnil h0] at hl
              exact hl rfl
            have := hlt hne
            exact ih _ (by simp only [RequestState.remaining]; omega)
      | BodyLine =>
        simp only
        rw [hs] at hf
        simp only [RequestState.remaining] at hf
        exact ih _ (by simp only [RequestState.remaining]; omega)
      | End => exact absurd hs h1

/-- C17: for every chunk size of at least 1 and every source (each delivers
finitely many bytes and then signals end-of-stream), `parseRequest` terminates:
there is one result that it returns for every fuel of at least the cost of the
source plus 3, and that result is either a Request and no error, or an error
and no Request. -/
theorem parseRequest_terminates (n : Nat) (reader : Reader) (hn : 1 ≤ n) :
    ∃ res, (∀ fuel, reader.cost + 3 ≤ fuel → parseRequest fuel n reader = some res) ∧
      ((∃ req, res = (some req, none)) ∨ ∃ e, res = (none, some e)) := by
  obtain ⟨res, h1, h2⟩ := parseLoop_total n hn (reader.cost + 3)
    { reader := reader, data := [], method := [], target := [], version := [],
      headers := [], state := RequestState.RequestLine, hasBody := false } (le_refl _)
  refine ⟨res, ?_, h2⟩
  intro fuel hf
  exact parseLoop_mono n _ fuel _ res h1 hf

/-- Witness of C17: chunk size 8 and the truncated stream `"GET / HT"`. -/
theorem parseRequest_terminates_witness :
    ∃ res, (∀ fuel, Reader.cost (Reader.ofBytes (ascii "GET / HT")) + 3 ≤ fuel →
        parseRequest fuel 8 (Reader.ofBytes (ascii "GET / HT")) = some res) ∧
      ((∃ req, res = (some req, none)) ∨ ∃ e, res = (none, some e)) :=
  parseRequest_terminates 8 (Reader.ofBytes (ascii "GET / HT")) (by decide)

theorem read_bytesToErr (reader : Reader) (n : Nat) (hn : 1 ≤ n) (chunk : List Byte)
    (e : Option GoError) (r1 : Reader) (bs : List Byte) (g : GoError) (r2 : Reader)
    (hr : reader.read n = (chunk, e, r1)) (he : reader.bytesToErr = some (bs, g, r2)) :
    (e = some g ∧ g ≠ GoError.EOF ∧ bs = chunk ∧ r2 = r1) ∨
      (e = none ∧ ∃ bs1, bs = chunk ++ bs1 ∧ r1.bytesToErr = some (bs1, g, r2) ∧
        r1.cost < reader.cost) := by
  cases reader with
  | nil => simp [Reader.bytesToErr] at he
  | cons ev rest =>
    obtain ⟨bytes, err⟩ := ev
    rw [read_cons] at hr
    simp only at hr
    split_ifs at hr with hl
    · simp only [Prod.mk.injEq] at hr
      obtain ⟨rfl, rfl, rfl⟩ := hr
      cases err with
      | none =>
        right
        simp only [Reader.bytesToErr] at he
        cases hrest : Reader.bytesToErr rest with
        | none => simp [hrest] at he
        | some p =>
          obtain ⟨bs1, g1, r3⟩ := p
          simp only [hrest, Option.some.injEq, Prod.mk.injEq] at he
          obtain ⟨rfl, rfl, rfl⟩ := he
          exact ⟨rfl, bs1, rfl, rfl, by simp [Reader.cost]⟩
      | some g0 =>
        left
        cases g0 <;> simp [Reader.bytesToErr] at he <;>
          obtain ⟨rfl, rfl, rfl⟩ := he <;> exact ⟨rfl, by simp, rfl, rfl⟩
    · simp only [Prod.mk.injEq] at hr
      obtain ⟨rfl, rfl, rfl⟩ := hr
      right
      have hcost : Reader.cost ({ bytes := bytes.drop n, err := err } :: rest) <
          Reader.cost ({ bytes := bytes, err := err } :: rest) := by
        simp only [Reader.cost, List.length_drop]
        omega
      cases err with
      | none =>
        simp only [Reader.bytesToErr] at he
        cases hrest : Reader.bytesToErr rest with
        | none => simp [hrest] at he
        | some p =>
          obtain ⟨bs1, g1, r3⟩ := p
          simp only [hrest, Option.some.injEq, Prod.mk.injEq] at he
          obtain ⟨rfl, rfl, rfl⟩ := he
          exact ⟨rfl, bytes.drop n ++ bs1, by rw [← List.append_assoc, List.take_append_drop],
            by simp [Reader.bytesToErr, hrest], hcost⟩
      | some g0 =>
        cases g0 <;> simp [Reader.bytesToErr] at he <;>
          obtain ⟨rfl, rfl, rfl⟩ := he <;>
          exact ⟨rfl, bytes.drop n, by simp, by simp [Reader.bytesToErr], hcost⟩

/-- C18 (as amended): for every chunk size of at least 1, whenever a read on the
source reports an error other than end-of-stream and the carry-over followed by
the bytes delivered up to and including the failing read contains no CR LF,
`readLine`, given enough fuel, returns that error and no line; the bytes the
failing read delivered are kept in the returned remainder. -/
theorem readLine_surfaces_read_error (fuel : Nat) (reader : Reader) (n : Nat)
    (data bs : List Byte) (g : GoError) (r2 : Reader) (hn : 1 ≤ n)
    (he : reader.bytesToErr = some (bs, g, r2)) (hno : ¬ rn <:+: data ++ bs)
    (hf : reader.cost + 1 ≤ fuel) :
    readLine fuel reader n data = some (none, data ++ bs, r2, some g) := by
  induction fuel generalizing reader data bs with
  | zero => omega
  | succ fuel ih =>
    rcases hr : reader.read n with ⟨chunk, e, r1⟩
    rw [readLine_step _ _ _ _ _ _ _ hr]
    have key := read_bytesToErr reader n hn chunk e r1 bs g r2 hr he
    have hnone : ∀ bs1, bs = chunk ++ bs1 →
        (if chunk = [] then none else bytesIndex (data ++ chunk) rn) = none := by
      intro bs1 hbs
      split_ifs
      · rfl
      · rw [bytesIndex_eq_none_iff]
        apply not_infix_of_append_left rn (data ++ chunk) bs1
        rw [List.append_assoc, ← hbs]
        exact hno
    rcases key with ⟨rfl, hg, rfl, rfl⟩ | ⟨rfl, bs1, rfl, h1, h2⟩
    · rw [hnone [] (by simp)]
      simp [hg]
    · rw [hnone bs1 rfl]
      simp only [reduceCtorEq, if_false, ne_eq, not_true_eq_false]
      rw [ih r1 (data ++ chunk) bs1 h1 (by rw [List.append_assoc]; exact hno) (by omega),
        List.append_assoc]

/-- Witness of C18 as amended: the failing read delivers `"a"`, which completes
no line; the error is returned and `"a"` is kept. -/
theorem readLine_surfaces_read_error_witness :
    readLine 5 [{ bytes := ascii "a", err := some (GoError.other "reset") }] 8 (ascii "x") =
      some (none, ascii "x" ++ ascii "a", [], some (GoError.other "reset")) :=
  readLine_surfaces_read_error 5 [{ bytes := ascii "a", err := some (GoError.other "reset") }]
    8 (ascii "x") (ascii "a") (GoError.other "reset") [] (by decide) (by decide) (by decide)
    (by decide)

/-- Counterexample to C18 as stated: a read that reports the error `reset`
together with the bytes `"a\r\n"` makes `readLine` return the line `"a"` and no
error. -/
theorem readLine_line_before_read_error :
    readLine 5 [{ bytes := ascii "a\r\n", err := some (GoError.other "reset") }] 8 [] =
      some (some (ascii "a"), [], [], none) := by
  decide

/-- C19 (as amended): a stream read error surfaced by `readLine` while
`parseRequest` reads the request line makes `parseRequest` return
`ErrInvalidRequestLine` (not the read error) and no Request. A read error
surfaced while it reads the header block, after a request line that decodes and
header lines that all contain a `':'`, is not propagated: the missing line
counts as the blank line and `parseRequest` returns no error and the Request
with the headers decoded so far. -/
theorem parseRequest_read_error :
    (∀ (fuel n F : Nat) (reader : Reader) (line : Option (List Byte)) (d : List Byte)
        (r : Reader) (e : GoError),
        readLine fuel reader n [] = some (line, d, r, some e) →
        fuel + 1 ≤ F →
        parseRequest F n reader = some (none, some GoError.ErrInvalidRequestLine)) ∧
      (∀ (fuel n F : Nat) (reader : Reader) (L : List Byte) (hs : List (List Byte))
        (line : Option (List Byte)) (d : List Byte) (r : Reader) (e : GoError)
        (m t v : List Byte),
        1 ≤ n →
        readLineCalls fuel n (hs.length + 2) reader [] =
          some ((some L, none) :: (hs.map (fun h => (some h, none)) ++ [(line, some e)]),
            d, r) →
        parseRequestLine L = (m, t, v, none) →
        (∀ h ∈ hs, colon ∈ h) →
        fuel + hs.length + 4 ≤ F → r.cost + hs.length + 5 ≤ F →
        parseRequest F n reader =
          some (some { Method := m, Target := t, Version := v,
                       headers := HeaderMap.insertLines [] hs, body := [] }, none)) := by
  constructor
  · intro fuel n F reader line d r e hrl hF
    obtain ⟨G, rfl⟩ : ∃ G, F = G + 1 := ⟨F - 1, by omega⟩
    have hline := readLine_err_line fuel reader n [] line d r e hrl
    exact parseRequest_of_state _ _ _ _ _
      (parseLoopState_request_err n G fuel reader [] line d r (some e) _ hrl (by omega)
        (by rw [hline, Option.getD_none, parseRequestLine_nil]))
  · intro fuel n F reader L hs line d r e m t v hn hc hL hcol hF hF2
    obtain ⟨G, rfl⟩ : ∃ G, F = ((G + 3) + hs.length) + 1 := ⟨F - hs.length - 4, by omega⟩
    rw [readLineCalls_cons_iff] at hc
    obtain ⟨d1, r1, h1, h2⟩ := hc
    have hlen : hs.length + 1 =
        (hs.map (fun h => ((some h : Option (List Byte)), (none : Option GoError)))).length +
          [(line, some e)].length := by simp
    rw [hlen] at h2
    obtain ⟨d2, r2, h3, h4⟩ := readLineCalls_append _ _ _ _ _ _ _ _ h2
    rw [List.length_map] at h3
    rw [List.length_singleton, readLineCalls_cons_iff] at h4
    obtain ⟨d3, r3, h5, h6⟩ := h4
    simp only [readLineCalls, Option.some.injEq, Prod.mk.injEq, true_and] at h6
    obtain ⟨rfl, rfl⟩ := h6
    have hline := readLine_err_line fuel r2 n d2 line d3 r3 e h5
    obtain ⟨s, h9⟩ := parseLoopState_end_of_headers n G fuel r2 d2 m t v
      (HeaderMap.insertLines [] hs) (seenContentLength false hs) line d3 r3 (some e) hn h5
      (by omega) (by rw [hline]; rfl) (by omega)
    apply parseRequest_of_state _ _ _ _ s
    unfold parseRequestState
    rw [parseLoopState_request n _ fuel reader [] (some L) d1 r1 none m t v h1 (by omega) hL,
      parseLoopState_headers n fuel m t v hs r1 d1 [] false d2 r2 (G + 3) h3 hcol (by omega),
      h9]

/-- Witness of C19 as amended: a `reset` in the middle of the request line gives
`ErrInvalidRequestLine`; a `reset` after the header `Host: x` gives the Request
with that header and no error. -/
theorem parseRequest_read_error_witness :
    parseRequest 20 bufSize [{ bytes := ascii "GET", err := some (GoError.other "reset") }] =
        some (none, some GoError.ErrInvalidRequestLine) ∧
      parseRequest 60 bufSize
          [{ bytes := ascii "GET / HTTP/1.1\r\nHost: x\r\n", err := none },
           { bytes := [], err := some (GoError.other "reset") }] =
        some (some { Method := ascii "GET", Target := ascii "/", Version := ascii "1.1",
                     headers := HeaderMap.insertLines [] [ascii "Host: x"],
                     body := [] }, none) :=
  ⟨parseRequest_read_error.1 10 bufSize 20
      [{ bytes := ascii "GET", err := some (GoError.other "reset") }] none (ascii "GET") []
      (GoError.other "reset") (by decide) (by decide),
    parseRequest_read_error.2 40 bufSize 60
      [{ bytes := ascii "GET / HTTP/1.1\r\nHost: x\r\n", err := none },
       { bytes := [], err := some (GoError.other "reset") }]
      (ascii "GET / HTTP/1.1") [ascii "Host: x"] none [] [] (GoError.other "reset")
      (ascii "GET") (ascii "/") (ascii "1.1")
      (by decide) (by decide) (by decide) (by decide) (by decide) (by decide)⟩

/-- Counterexample to C19 as stated: the stream fails with `reset` in the header
block, in the middle of a second header line, and `parseRequest` returns a
Request and no error. -/
theorem parseRequest_read_error_in_headers :
    parseRequest 60 bufSize
        [{ bytes := ascii "GET / HTTP/1.1\r\nHost: x\r\nAcc",
           err := some (GoError.other "reset") }] =
      some (some { Method := ascii "GET", Target := ascii "/", Version := ascii "1.1",
                   headers := [(ascii "Host", ascii " x")], body := [] }, none) := by
  decide

theorem readLine_one_byte_rest (fuel : Nat) (reader : Reader) (data line rest : List Byte)
    (r1 : Reader) (e : Option GoError) (hd : ¬ rn <:+: data)
    (h : readLine fuel reader 1 data = some (some line, rest, r1, e)) :
    rest = [] ∧ data ++ reader.content = line ++ rn ++ r1.content := by
  induction fuel generalizing reader data with
  | zero => simp [readLine] at h
  | succ fuel ih =>
    rcases hr : reader.read 1 with ⟨chunk, e1, r2⟩
    have hcont := read_content reader 1 chunk e1 r2 hr
    have hlen := read_length reader 1
    rw [hr] at hlen
    simp only at hlen
    rw [readLine_step _ _ _ _ _ _ _ hr] at h
    cases hm : (if chunk = [] then none else bytesIndex (data ++ chunk) rn) with
    | none =>
      rw [hm] at h
      simp only at h
      have hd1 : ¬ rn <:+: data ++ chunk := by
        by_cases hch : chunk = []
        · simpa [hch] using hd
        · rw [← bytesIndex_eq_none_iff]
          simpa [hch] using hm
      split_ifs at h with h1 h2
      · simp at h
      · simp at h
      · obtain ⟨h3, h4⟩ := ih r2 (data ++ chunk) hd1 h
        exact ⟨h3, by rw [hcont, ← List.append_assoc]; exact h4⟩
    | some idx =>
      rw [hm] at h
      simp only [Option.some.injEq, Prod.mk.injEq] at h
      obtain ⟨rfl, rfl, rfl, -⟩ := h
      have hch : chunk ≠ [] := by
        rintro rfl
        simp at hm
      simp only [hch, if_false] at hm
      obtain ⟨b, rfl⟩ : ∃ b, chunk = [b] := by
        match chunk, hch, hlen with
        | [b], _, _ => exact ⟨b, rfl⟩
        | _ :: _ :: _, _, hlen => simp at hlen
      have hsplit := bytesIndex_some_split _ _ _ hm
      rw [rn_length] at hsplit
      have hq := tail_nil_of_snoc data _ _ b hd hsplit
      refine ⟨hq, ?_⟩
      rw [hq, List.append_nil] at hsplit
      rw [hcont, ← List.append_assoc]
      conv_lhs => rw [hsplit]

/-- C20: no over-read at the default chunk size. With chunk size 1 and a
carry-over that contains no CR LF, every call of `readLine` that returns a line
returns an empty remainder, and the carry-over followed by the bytes of the
source is the line, CR LF, and the bytes the source still holds: the source has
been consumed exactly up to and including the delimiter. Hence, in a chain of
calls starting from the empty carry-over in which every call returns a line,
the carry-over is empty at the end and the source has delivered exactly those
lines with their delimiters. -/
theorem readLine_no_over_read :
    (∀ (fuel : Nat) (reader : Reader) (data line rest : List Byte) (r1 : Reader)
        (e : Option GoError),
        ¬ rn <:+: data →
        readLine fuel reader bufSize data = some (some line, rest, r1, e) →
        rest = [] ∧ data ++ reader.content = line ++ rn ++ r1.content) ∧
      (∀ (fuel : Nat) (results : List (Option (List Byte) × Option GoError))
        (reader : Reader) (d : List Byte) (r : Reader),
        readLineCalls fuel bufSize results.length reader [] = some (results, d, r) →
        (∀ x ∈ results, x.1 ≠ none) →
        d = [] ∧
          reader.content = joinLines (results.map (fun x => x.1.getD [])) ++ r.content) := by
  constructor
  · intro fuel reader data line rest r1 e hd h
    exact readLine_one_byte_rest fuel reader data line rest r1 e hd h
  · intro fuel results
    induction results with
    | nil =>
      intro reader d r h _
      simp only [List.length_nil, readLineCalls, Option.some.injEq, Prod.mk.injEq,
        true_and] at h
      obtain ⟨rfl, rfl⟩ := h
      exact ⟨rfl, by simp [joinLines]⟩
    | cons x xs ih =>
      intro reader d r h hall
      rw [List.length_cons, readLineCalls_cons_iff] at h
      obtain ⟨d1, r1, h1, h2⟩ := h
      obtain ⟨l, e⟩ := x
      cases l with
      | none => exact absurd rfl (hall _ (List.mem_cons_self _ _))
      | some line =>
        obtain ⟨h3, h4⟩ := readLine_one_byte_rest fuel reader [] line d1 r1 e
          not_rn_infix_nil h1
        subst h3
        obtain ⟨h5, h6⟩ := ih r1 d r h2 (fun y hy => hall y (List.mem_cons_of_mem _ hy))
        refine ⟨h5, ?_⟩
        rw [List.nil_append] at h4
        rw [h4, h6]
        simp [joinLines]

/-- Witness of C20: reading `"ab\r\ncd\r\nef"` one byte at a time. -/
theorem readLine_no_over_read_witness :
    (([] : List Byte) = [] ∧
        ascii "a" ++ Reader.content (Reader.ofBytes (ascii "b\r\ncd\r\nef")) =
          ascii "ab" ++ rn ++ Reader.content (Reader.ofBytes (ascii "cd\r\nef"))) ∧
      (([] : List Byte) = [] ∧
        Reader.content (Reader.ofBytes (ascii "ab\r\ncd\r\nef")) =
          joinLines ([(some (ascii "ab"), (none : Option GoError)),
              (some (ascii "cd"), none)].map (fun x => x.1.getD [])) ++
            Reader.content (Reader.ofBytes (ascii "ef"))) :=
  ⟨readLine_no_over_read.1 20 (Reader.ofBytes (ascii "b\r\ncd\r\nef")) (ascii "a")
      (ascii "ab") [] (Reader.ofBytes (ascii "cd\r\nef")) none (by decide) (by decide),
    readLine_no_over_read.2 20 [(some (ascii "ab"), none), (some (ascii "cd"), none)]
      (Reader.ofBytes (ascii "ab\r\ncd\r\nef")) [] (Reader.ofBytes (ascii "ef"))
      (by decide) (by decide)⟩

end HttpServer
